import Mathlib

set_option autoImplicit false

/-!
A shallow embedding of the in-memory virtual filesystem from
`src/index.ts` and `src/FileSystemNode.ts`.

JavaScript `Map` objects are modelled as insertion-ordered association
lists (`set` replaces in place or appends at the end, like JS `Map.set`).
Node references are modelled as positions (lists of map keys) in the tree
hanging from the root; the current directory is stored as such a position.
Path-string helpers (`normalize`, `basename`, `dirname`, `split('/')`,
`Buffer.byteLength`) are re-implemented over `List Char`, following the
`node:path` POSIX implementations, so that every definition evaluates by
kernel reduction.
-/

namespace VFSModel

/-- UTF-8 byte size of one character, as `Buffer.byteLength` counts it. -/
def charBytes (c : Char) : Nat :=
  if c.val < 0x80 then 1
  else if c.val < 0x800 then 2
  else if c.val < 0x10000 then 3
  else 4

/-- `Buffer.byteLength(s)` for a JS string `s`. -/
def byteLength (s : String) : Nat :=
  (s.toList.map charBytes).sum

/-- JS `s.split('/')` over the character list. Always yields a nonempty list. -/
def splitSlashL : List Char → List (List Char)
  | [] => [[]]
  | c :: rest =>
    match splitSlashL rest with
    | [] => [[]]
    | h :: t => if c = '/' then [] :: h :: t else (c :: h) :: t

/-- Join segments with `'/'` (inverse direction of `splitSlashL`). -/
def joinSlashL : List (List Char) → List Char
  | [] => []
  | [s] => s
  | s :: rest => s ++ '/' :: joinSlashL rest

/-- One step of `node:path` `normalizeString`: process one segment against
the accumulated (reversed) list of output segments. -/
def normStep (allowAboveRoot : Bool) (acc : List (List Char)) (seg : List Char) :
    List (List Char) :=
  if seg = [] ∨ seg = ['.'] then acc
  else if seg = ['.', '.'] then
    match acc with
    | [] => if allowAboveRoot then [['.', '.']] else []
    | a :: rest =>
      if a = ['.', '.'] then (if allowAboveRoot then seg :: a :: rest else a :: rest)
      else rest
  else seg :: acc

/-- `path.posix.normalize` over a character list. -/
def normalizeL (cs : List Char) : List Char :=
  if cs = [] then ['.']
  else
    let isAbs := cs.head? = some '/'
    let trailing := cs.getLast? = some '/'
    let segs := ((splitSlashL cs).foldl (normStep !isAbs) []).reverse
    let core := joinSlashL segs
    if core = [] then
      if isAbs then ['/'] else if trailing then ['.', '/'] else ['.']
    else
      let core2 := if trailing then core ++ ['/'] else core
      if isAbs then '/' :: core2 else core2

/-- `pathUtils.normalize`. -/
def normalize (s : String) : String := String.mk (normalizeL s.toList)

/-- `path.posix.basename` over a character list: drop trailing slashes,
then keep the suffix after the last slash. -/
def basenameL (cs : List Char) : List Char :=
  ((cs.reverse.dropWhile (· = '/')).takeWhile (· ≠ '/')).reverse

/-- `pathUtils.basename`. -/
def basename (s : String) : String := String.mk (basenameL s.toList)

/-- `path.posix.dirname` over a character list. -/
def dirnameL (cs : List Char) : List Char :=
  match cs with
  | [] => ['.']
  | c0 :: rest =>
    let hasRoot := c0 = '/'
    let r2 := ((rest.reverse.dropWhile (· = '/')).dropWhile (· ≠ '/'))
    if r2.length = 0 then (if hasRoot then ['/'] else ['.'])
    else if hasRoot ∧ r2.length = 1 then ['/', '/']
    else (c0 :: rest).take r2.length

/-- `pathUtils.dirname`. -/
def dirname (s : String) : String := String.mk (dirnameL s.toList)

/-- `path.posix.isAbsolute`. -/
def isAbsolute (s : String) : Bool := s.toList.head? = some '/'

/-! ## Association lists with JS `Map` semantics

`set` replaces an existing key in place (keeping its position) or appends
at the end; `get` returns the first (unique) binding; `delete` removes it.
Iteration order is list order, i.e. insertion order, as for a JS `Map`. -/

def getEntry {α : Type} (k : String) : List (String × α) → Option α
  | [] => none
  | (k', v) :: rest => if k' = k then some v else getEntry k rest

def setEntry {α : Type} (k : String) (v : α) : List (String × α) → List (String × α)
  | [] => [(k, v)]
  | (k', v') :: rest => if k' = k then (k, v) :: rest else (k', v') :: setEntry k v rest

def delEntry {α : Type} (k : String) : List (String × α) → List (String × α)
  | [] => []
  | (k', v') :: rest => if k' = k then rest else (k', v') :: delEntry k rest

/-! ## Data model (`src/FileSystemNode.ts`) -/

/-- `ROOT_PATH` from `src/index.ts`. -/
def ROOT_PATH : String := "/"

/-- Error vocabulary (`ErrorMsg` in `src/index.ts`); messages elided,
only the kind is modelled. -/
inductive Err where
  | AmbiguousPath
  | CannotUpdateRoot
  | DirectoryNotFound
  | DirectoryExists
  | FileNotFound
  | FileExists
  | MissingPath
  | NotFound
  | OutOfMemory
deriving DecidableEq, Repr

/-- A `File` node: its own `name` field (which can diverge from the key it
is stored under in its parent's map), the optional `content`, and the
cached `contentByteCount`. The parent back-reference is implicit in the
node's position in the tree. -/
structure FileObj where
  name : String
  content : Option String
  contentByteCount : Option Nat
deriving DecidableEq, Repr

/-- A `Directory` node: `name`, plus the two insertion-ordered maps
`directoriesByName` and `filesByName`. -/
inductive Dir where
  | mk (name : String) (directoriesByName : List (String × Dir))
      (filesByName : List (String × FileObj))

def Dir.name : Dir → String
  | .mk n _ _ => n

def Dir.dirs : Dir → List (String × Dir)
  | .mk _ ds _ => ds

def Dir.files : Dir → List (String × FileObj)
  | .mk _ _ fs => fs

def Dir.withDirs (d : Dir) (ds : List (String × Dir)) : Dir :=
  .mk d.name ds d.files

def Dir.withFiles (d : Dir) (fs : List (String × FileObj)) : Dir :=
  .mk d.name d.dirs fs

/-- JS truthiness of an optional string content (`''` is falsy). -/
def truthy : Option String → Bool
  | none => false
  | some s => s ≠ ""

/-- The `File` constructor: content fields are only set when the given
content is truthy. -/
def FileObj.make (name : String) (content : Option String) : FileObj :=
  match content with
  | some s => if s = "" then ⟨name, none, none⟩ else ⟨name, some s, some (byteLength s)⟩
  | none => ⟨name, none, none⟩

/-- `Directory.hasDirectory` (one level deep). -/
def Dir.hasDirectory (d : Dir) (name : String) : Bool :=
  (getEntry name d.dirs).isSome

/-- `Directory.hasFile` (one level deep). -/
def Dir.hasFile (d : Dir) (name : String) : Bool :=
  (getEntry name d.files).isSome

/-- `Directory.addDirectory`: fails `AmbiguousPath` if a file occupies the
name, otherwise inserts/replaces under `child.name`. -/
def Dir.addDirectory (d : Dir) (child : Dir) : Except Err Dir :=
  if d.hasFile child.name then .error .AmbiguousPath
  else .ok (d.withDirs (setEntry child.name child d.dirs))

/-- `Directory.addFile`: fails `AmbiguousPath` if a directory occupies the
name, otherwise inserts/replaces under `f.name`. -/
def Dir.addFile (d : Dir) (f : FileObj) : Except Err Dir :=
  if d.hasDirectory f.name then .error .AmbiguousPath
  else .ok (d.withFiles (setEntry f.name f d.files))

/-- `Directory.createAndAddDirectory`. -/
def Dir.createAndAddDirectory (d : Dir) (name : String) : Except Err Dir :=
  if name = ROOT_PATH then .error .DirectoryExists
  else d.addDirectory (.mk name [] [])

/-- `Directory.createAndAddFile` (no content passed by `makeFile`). -/
def Dir.createAndAddFile (d : Dir) (name : String) (content : Option String) :
    Except Err Dir :=
  d.addFile (FileObj.make name content)

/-- `Directory.removeDirectory`: refuses the root sentinel name. -/
def Dir.removeDirectory (d : Dir) (name : String) : Except Err Dir :=
  if name = ROOT_PATH then .error .CannotUpdateRoot
  else .ok (d.withDirs (delEntry name d.dirs))

/-- `Directory.removeFile`: delete by name, no-op if absent. -/
def Dir.removeFile (d : Dir) (name : String) : Dir :=
  d.withFiles (delEntry name d.files)

mutual

/-- `Directory.getTotalByteCount`: recursively sums the cached
`contentByteCount` (defaulting to 0) over the subtree. -/
def Dir.getTotalByteCount : Dir → Nat
  | .mk _ ds fs =>
    (fs.map (fun p => p.2.contentByteCount.getD 0)).sum + dirListByteCount ds

def dirListByteCount : List (String × Dir) → Nat
  | [] => 0
  | (_, d) :: rest => d.getTotalByteCount + dirListByteCount rest

end

mutual

/-- Number of directory nodes in the tree (used as recursion fuel for
`find`, whose source recursion is through re-resolved paths). -/
def Dir.countDirs : Dir → Nat
  | .mk _ ds _ => 1 + dirListCount ds

def dirListCount : List (String × Dir) → Nat
  | [] => 0
  | (_, d) :: rest => d.countDirs + dirListCount rest

end

/-! ## Positions

A node reference is modelled as the list of map keys leading to it from
the root. The parent of a node at a nonempty position is at its
`dropLast`; the root (the node with `parent === null`) is at `[]`. -/

abbrev Pos := List String

/-- Follow a position from a directory down the `directoriesByName` maps. -/
def dirAtPos : Dir → Pos → Option Dir
  | d, [] => some d
  | d, k :: rest =>
    match getEntry k d.dirs with
    | some c => dirAtPos c rest
    | none => none

/-- Apply `f` to the directory at `pos` (identity if the position dangles). -/
def updateAt (d : Dir) (pos : Pos) (f : Dir → Dir) : Dir :=
  match pos with
  | [] => f d
  | k :: rest =>
    match getEntry k d.dirs with
    | none => d
    | some c => d.withDirs (setEntry k (updateAt c rest f) d.dirs)

/-- `FileSystemNode.getPath` for the directory at `pos`: the root returns
its own name, each child normalizes `parentPath + '/' + name` using the
child's `name` field. -/
def dirPathStringAux : Dir → String → Pos → Option String
  | _, acc, [] => some acc
  | d, acc, k :: rest =>
    match getEntry k d.dirs with
    | some c => dirPathStringAux c (normalize (acc ++ "/" ++ c.name)) rest
    | none => none

def dirPathString (root : Dir) (pos : Pos) : Option String :=
  dirPathStringAux root root.name pos

/-- `FileSystemNode.getPath` for a file object under the directory at `pos`. -/
def filePathString (root : Dir) (pos : Pos) (f : FileObj) : Option String :=
  (dirPathString root pos).map (fun p => normalize (p ++ "/" ++ f.name))

/-! ## Namespace state (`VirtualFileSystem`) -/

/-- The `VirtualFileSystem` state. `currentDirPos` models the
`currentDir` object reference by its position in the tree (the model
assumes the current directory is attached to the tree; a detached
`currentDir`, observable in JS after removing an ancestor of the current
directory, resolves to nothing here). -/
structure VFS where
  root : Dir
  currentDirPos : Pos
  totalFileContentBytes : Int
  maxBytes : Int

/-- The constructor: root named `/`, zero bytes, 1 GiB limit. -/
def VFS.init : VFS :=
  { root := .mk ROOT_PATH [] []
    currentDirPos := []
    totalFileContentBytes := 0
    maxBytes := 1073741824 }

/-- `MOVE_UP_PATHS` / `CURRENT_DIR_PATHS` membership tests. -/
def isMoveUp (s : String) : Bool := s = ".." ∨ s = "../"

def isCurrentDir (s : String) : Bool := s = "." ∨ s = "./"

/-- The segment walk of `_getTarget` (over the directory portion of the
path): `..` moves to the parent when one exists (clamped at the root),
`.` is skipped, other segments are looked up in `directoriesByName` and
resolution fails immediately when the lookup misses. -/
def walkSegs (root : Dir) : Pos → List String → Option Pos
  | pos, [] => some pos
  | pos, seg :: rest =>
    if isMoveUp seg then walkSegs root pos.dropLast rest
    else if isCurrentDir seg then walkSegs root pos rest
    else
      match dirAtPos root (pos ++ [seg]) with
      | some _ => walkSegs root (pos ++ [seg]) rest
      | none => none

/-- `pathUtils.dirname(path).split('/').filter(Boolean)`. -/
def pathSegsOfDirname (path : String) : List String :=
  ((splitSlashL (dirname path).toList).map String.mk).filter (· ≠ "")

/-- `_getTarget` with `type === NodeType.DIRECTORY`, returning the position
of the resolved directory. -/
def VFS.resolveDirPos (s : VFS) (path0 : String) : Option Pos :=
  let path := normalize path0
  if isCurrentDir path then some s.currentDirPos
  else if path = ROOT_PATH then some []
  else if isMoveUp path then some s.currentDirPos.dropLast
  else
    let pathArray := pathSegsOfDirname path
    let startPos : Pos := if isAbsolute path then [] else s.currentDirPos
    match walkSegs s.root startPos pathArray with
    | none => none
    | some pos =>
      match dirAtPos s.root pos with
      | none => none
      | some d =>
        let targetName := basename path
        if (getEntry targetName d.dirs).isSome then some (pos ++ [targetName])
        else none

/-- `_getTargetDirectory`: position plus the directory value. -/
def VFS.getTargetDirectory (s : VFS) (path : String) : Option (Pos × Dir) :=
  match s.resolveDirPos path with
  | none => none
  | some pos => (dirAtPos s.root pos).map (fun d => (pos, d))

/-- `_getTarget` with `type === NodeType.FILE` (no whole-path special
cases): parent position, the key in `filesByName`, and the file value. -/
def VFS.getTargetFile (s : VFS) (path0 : String) : Option (Pos × String × FileObj) :=
  let path := normalize path0
  let pathArray := pathSegsOfDirname path
  let startPos : Pos := if isAbsolute path then [] else s.currentDirPos
  match walkSegs s.root startPos pathArray with
  | none => none
  | some pos =>
    match dirAtPos s.root pos with
    | none => none
    | some d =>
      let targetName := basename path
      match getEntry targetName d.files with
      | some f => some (pos, targetName, f)
      | none => none

/-! ## Public operations (`src/index.ts`)

Each operation returns the thrown error or the produced value, together
with the post-state (which, for the few operations that mutate before
throwing, differs from the pre-state even on error). -/

/-- The directory object `this.currentDir` points at. -/
def VFS.currentDirValue (s : VFS) : Option Dir :=
  dirAtPos s.root s.currentDirPos

/-- `getCurrentDir`. -/
def VFS.getCurrentDir (s : VFS) : Option String :=
  dirPathString s.root s.currentDirPos

/-- `getAvailableSpace`. -/
def VFS.getAvailableSpace (s : VFS) : Int :=
  s.maxBytes - s.totalFileContentBytes

/-- `getDirectoryContents`: child-directory keys then child-file keys.
Note the JS guard `path ? ... : this.currentDir` is a truthiness test, so
an empty-string path also means the current directory. -/
def VFS.getDirectoryContentsOfCurrent (s : VFS) : Except Err (List String) × VFS :=
  match s.currentDirValue with
  | none => (.error .DirectoryNotFound, s)
  | some d => (.ok (d.dirs.map Prod.fst ++ d.files.map Prod.fst), s)

def VFS.getDirectoryContents (s : VFS) (path : Option String) :
    Except Err (List String) × VFS :=
  match path with
  | none => s.getDirectoryContentsOfCurrent
  | some p =>
    if p = "" then s.getDirectoryContentsOfCurrent
    else
      match s.getTargetDirectory p with
      | none => (.error .DirectoryNotFound, s)
      | some (_, d) => (.ok (d.dirs.map Prod.fst ++ d.files.map Prod.fst), s)

/-- `changeDirectory` (defaults to the root path). -/
def VFS.changeDirectory (s : VFS) (path : Option String) : Except Err Unit × VFS :=
  let p := path.getD ROOT_PATH
  match s.getTargetDirectory p with
  | none => (.error .DirectoryNotFound, s)
  | some (pos, _) => (.ok (), { s with currentDirPos := pos })

/-- `makeDirectory`. -/
def VFS.makeDirectory (s : VFS) (path : String) : Except Err Unit × VFS :=
  if path = "" then (.error .MissingPath, s)
  else
    let p := normalize path
    let name := basename p
    match s.getTargetDirectory (dirname p) with
    | none => (.error .DirectoryNotFound, s)
    | some (pos, d) =>
      match d.createAndAddDirectory name with
      | .error e => (.error e, s)
      | .ok d' => (.ok (), { s with root := updateAt s.root pos (fun _ => d') })

/-- `makeFile`. Unlike `makeDirectory` there is no empty-path check in the
source. -/
def VFS.makeFile (s : VFS) (path : String) : Except Err Unit × VFS :=
  let p := normalize path
  let name := basename p
  match s.getTargetDirectory (dirname p) with
  | none => (.error .DirectoryNotFound, s)
  | some (pos, d) =>
    match d.createAndAddFile name none with
    | .error e => (.error e, s)
    | .ok d' => (.ok (), { s with root := updateAt s.root pos (fun _ => d') })

/-- `removeDirectory`. The subtree byte count is subtracted from the
global counter before `dir.parent.removeDirectory(dir.name)` runs, and
that primitive throws on the root sentinel name, so the counter mutation
precedes that (exotic) failure, exactly as in the source. -/
def VFS.removeDirectory (s : VFS) (path : String) : Except Err Unit × VFS :=
  match s.getTargetDirectory path with
  | none => (.error .DirectoryNotFound, s)
  | some (pos, d) =>
    if pos = [] then (.error .CannotUpdateRoot, s)
    else
      let bytes : Int := d.getTotalByteCount
      let s1 := { s with totalFileContentBytes := s.totalFileContentBytes - bytes }
      if d.name = ROOT_PATH then (.error .CannotUpdateRoot, s1)
      else
        (.ok (), { s1 with
          root := updateAt s1.root pos.dropLast
            (fun p => p.withDirs (delEntry d.name p.dirs)) })

/-- `removeFile`: subtract the byte length only when the content is truthy,
then `file.parent.removeFile(file.name)` (the file's `name` field). -/
def VFS.removeFile (s : VFS) (path : String) : Except Err Unit × VFS :=
  match s.getTargetFile path with
  | none => (.error .FileNotFound, s)
  | some (pos, _, f) =>
    let s1 :=
      if truthy f.content then
        { s with totalFileContentBytes :=
            s.totalFileContentBytes - (byteLength (f.content.getD "") : Int) }
      else s
    (.ok (), { s1 with root := updateAt s1.root pos (fun d => d.removeFile f.name) })

/-- `readFile`. -/
def VFS.readFile (s : VFS) (path : String) : Except Err (Option String) × VFS :=
  match s.getTargetFile path with
  | none => (.error .FileNotFound, s)
  | some (_, _, f) => (.ok f.content, s)

/-- `writeFile`: capacity check against `totalContentBytes + byteLength`,
then `setContent` and an additive counter update. -/
def VFS.writeFile (s : VFS) (path content : String) : Except Err Unit × VFS :=
  match s.getTargetFile path with
  | none => (.error .FileNotFound, s)
  | some (pos, key, f) =>
    let len : Int := byteLength content
    if s.totalFileContentBytes + len > s.maxBytes then (.error .OutOfMemory, s)
    else
      let f' := { f with content := some content, contentByteCount := some (byteLength content) }
      (.ok (), { s with
        root := updateAt s.root pos (fun d => d.withFiles (setEntry key f' d.files))
        totalFileContentBytes := s.totalFileContentBytes + len })

/-- `moveFile`: `targetDir.addFile(file)` then
`originalParent.removeFile(file.name)`. Adding a file moves no directory,
so the original parent is still found at its old position. -/
def VFS.moveFile (s : VFS) (path targetDirPath : String) : Except Err Unit × VFS :=
  match s.getTargetFile path, s.getTargetDirectory targetDirPath with
  | none, _ => (.error .FileNotFound, s)
  | some _, none => (.error .DirectoryNotFound, s)
  | some (pPos, _, f), some (tPos, tDir) =>
    match tDir.addFile f with
    | .error e => (.error e, s)
    | .ok tDir' =>
      let root1 := updateAt s.root tPos (fun _ => tDir')
      let root2 := updateAt root1 pPos (fun d => d.removeFile f.name)
      (.ok (), { s with root := root2 })

/-- `renameFile`, inlining `File.update({name})`: the file's `name` field
is mutated in place BEFORE `parent.addFile` re-checks for a directory of
the new name, so the `AmbiguousPath` failure leaves the renamed `name`
field behind. On success the entry is re-inserted under the new name,
then removed under the old field name (by `File.update`) and under
`basename(path)` (by `renameFile` itself). -/
def VFS.renameFile (s : VFS) (path name : String) : Except Err Unit × VFS :=
  match s.getTargetFile path with
  | none => (.error .FileNotFound, s)
  | some (pPos, key, f) =>
    let originalName := basename path
    let originalFieldName := f.name
    let f' := { f with name := name }
    let root0 := updateAt s.root pPos (fun d => d.withFiles (setEntry key f' d.files))
    let parent := (dirAtPos s.root pPos).getD (.mk "" [] [])
    if parent.hasDirectory name then (.error .AmbiguousPath, { s with root := root0 })
    else
      let root1 := updateAt root0 pPos (fun d => d.withFiles (setEntry name f' d.files))
      let root2 := updateAt root1 pPos (fun d => d.removeFile originalFieldName)
      let root3 := updateAt root2 pPos (fun d => d.removeFile originalName)
      (.ok (), { s with root := root3 })

/-- `renameDirectory`, inlining `Directory.update({name})`: here the
`AmbiguousPath` check precedes any mutation; afterwards the directory is
re-keyed under the new name, the stale entry under the old `name` field is
removed by `Directory.update` (whose `removeDirectory` throws on the root
sentinel name), and `renameDirectory` finally removes the entry keyed
`basename(path)`. -/
def VFS.renameDirectory (s : VFS) (path name : String) : Except Err Unit × VFS :=
  if normalize path = ROOT_PATH then (.error .CannotUpdateRoot, s)
  else
    match s.getTargetDirectory path with
    | none => (.error .DirectoryNotFound, s)
    | some (dPos, dir) =>
      let originalName := basename path
      if dPos = [] then (.error .CannotUpdateRoot, s)
      else
        let pPos := dPos.dropLast
        let key := dPos.getLast?.getD ""
        let parent := (dirAtPos s.root pPos).getD (.mk "" [] [])
        if parent.hasFile name then (.error .AmbiguousPath, s)
        else
          let dir' := Dir.mk name dir.dirs dir.files
          let originalFieldName := dir.name
          let root0 := updateAt s.root pPos (fun p => p.withDirs (setEntry key dir' p.dirs))
          let root1 := updateAt root0 pPos (fun p => p.withDirs (setEntry name dir' p.dirs))
          if originalFieldName = ROOT_PATH then (.error .CannotUpdateRoot, { s with root := root1 })
          else
            let root2 := updateAt root1 pPos (fun p => p.withDirs (delEntry originalFieldName p.dirs))
            if originalName = ROOT_PATH then (.error .CannotUpdateRoot, { s with root := root2 })
            else
              let root3 := updateAt root2 pPos (fun p => p.withDirs (delEntry originalName p.dirs))
              -- currentDir is an object reference in JS: if it is the renamed
              -- directory or lies inside it, it follows the rename
              let newCur :=
                if dPos.isPrefixOf s.currentDirPos then
                  pPos ++ [name] ++ s.currentDirPos.drop dPos.length
                else s.currentDirPos
              (.ok (), { s with root := root3, currentDirPos := newCur })

/-- `path.posix.resolve(p)` against the process working directory. -/
def posixResolve (cwd p : String) : String :=
  let joined := if isAbsolute p then p else cwd ++ "/" ++ p
  let abs := isAbsolute joined
  let segs := ((splitSlashL joined.toList).foldl (normStep !abs) []).reverse
  let core := joinSlashL segs
  if abs then String.mk ('/' :: core)
  else if core = [] then "." else String.mk core

/-- `pathUtils.relative(f, t) === ''`: true exactly when the two paths
are identical or resolve (against the process cwd) to the same absolute
path. -/
def relativeIsEmpty (cwd f t : String) : Bool :=
  f = t ∨ posixResolve cwd f = posixResolve cwd t

/-- `moveDirectory`: root check on the normalized source path, resolve
both ends, `targetDir.addDirectory(directory)` (replace semantics), then
`originalParent?.removeDirectory(directory.name)`, then the
`currentDir`-relocation check. The removal acts on the original parent
OBJECT: when the insertion just replaced an ancestor of that object
(possible when the target lies inside the moved subtree), the object is
detached and the removal is unobservable from the root, which the
position model expresses by skipping the tree update. -/
def VFS.moveDirectory (cwd : String) (s : VFS) (path targetDirPath : String) :
    Except Err Unit × VFS :=
  if normalize path = ROOT_PATH then (.error .CannotUpdateRoot, s)
  else
    match s.getTargetDirectory path, s.getTargetDirectory targetDirPath with
    | none, _ => (.error .DirectoryNotFound, s)
    | some _, none => (.error .DirectoryNotFound, s)
    | some (dPos, dir), some (tPos, tDir) =>
      match tDir.addDirectory dir with
      | .error e => (.error e, s)
      | .ok tDir' =>
        let root1 := updateAt s.root tPos (fun _ => tDir')
        if dPos ≠ [] ∧ dir.name = ROOT_PATH then
          (.error .CannotUpdateRoot, { s with root := root1 })
        else
          let root2 :=
            if dPos = [] then root1
            else if (tPos ++ [dir.name]).isPrefixOf dPos.dropLast then root1
            else updateAt root1 dPos.dropLast
              (fun p => p.withDirs (delEntry dir.name p.dirs))
          -- currentDir is an object reference in JS: if it is the moved
          -- directory or lies inside it, it follows the move; the source's
          -- explicit relative-path check then (re)assigns it when the moved
          -- directory's post-move path matches the source path argument
          let curFollow :=
            if dPos.isPrefixOf s.currentDirPos then
              tPos ++ [dir.name] ++ s.currentDirPos.drop dPos.length
            else s.currentDirPos
          let newCur :=
            match dirPathString root2 curFollow with
            | some cp => if relativeIsEmpty cwd cp path then tPos ++ [dir.name]
                         else curFollow
            | none => curFollow
          (.ok (), { s with root := root2, currentDirPos := newCur })

/-- `find`, fuel-indexed: the source recursion re-resolves each child
directory's absolute path through the public `find`, which terminates on
attached well-formed trees; the fuel (strictly larger than the recursion
depth ever reached on such trees) makes the recursion structural. The
`forEach` over `directoriesByName` pushes the child's own path when its
name matches, then recurses into it regardless; a thrown error aborts the
whole call, which the error-absorbing fold reproduces. -/
def VFS.findAux (s : VFS) : Nat → String → String → Except Err (List String)
  | 0, _, _ => .ok []
  | Nat.succ fuel, name, path =>
    match s.getTargetDirectory path with
    | none => .error .DirectoryNotFound
    | some (pPos, parentDir) =>
      let fileMatches :=
        match getEntry name parentDir.files with
        | some f =>
          match filePathString s.root pPos f with
          | some fp => [fp]
          | none => []
        | none => []
      let parentPath := (dirPathString s.root pPos).getD ""
      parentDir.dirs.foldl
        (fun acc p =>
          match acc with
          | .error e => .error e
          | .ok sofar =>
            let d := p.2
            let childPath := normalize (parentPath ++ "/" ++ d.name)
            let base := if d.name = name then [childPath] else []
            match s.findAux fuel name childPath with
            | .error e => .error e
            | .ok sub => .ok (sofar ++ (base ++ sub)))
        (.ok fileMatches)

/-- `find` (default path `.`); the fuel bound exceeds any recursion depth
reachable on attached trees. -/
def VFS.find (s : VFS) (name : String) (path : Option String) :
    Except Err (List String) × VFS :=
  (s.findAux (s.root.countDirs + 1) name (path.getD "."), s)

/-! ## Operation words and reachable states -/

/-- One public operation with its arguments. -/
inductive Op where
  | changeDirectory (path : Option String)
  | makeDirectory (path : String)
  | makeFile (path : String)
  | removeDirectory (path : String)
  | removeFile (path : String)
  | writeFile (path content : String)
  | moveFile (path targetDirPath : String)
  | renameFile (path name : String)
  | renameDirectory (path name : String)
  | moveDirectory (path targetDirPath : String)
  | getDirectoryContents (path : Option String)
  | readFile (path : String)
  | find (name : String) (path : Option String)

/-- The state after running one operation (error or not). -/
def VFS.step (cwd : String) (s : VFS) : Op → VFS
  | .changeDirectory p => (s.changeDirectory p).2
  | .makeDirectory p => (s.makeDirectory p).2
  | .makeFile p => (s.makeFile p).2
  | .removeDirectory p => (s.removeDirectory p).2
  | .removeFile p => (s.removeFile p).2
  | .writeFile p c => (s.writeFile p c).2
  | .moveFile p t => (s.moveFile p t).2
  | .renameFile p n => (s.renameFile p n).2
  | .renameDirectory p n => (s.renameDirectory p n).2
  | .moveDirectory p t => (VFS.moveDirectory cwd s p t).2
  | .getDirectoryContents p => (s.getDirectoryContents p).2
  | .readFile p => (s.readFile p).2
  | .find n p => (s.find n p).2

/-- The state after a whole sequence of operations. -/
def VFS.run (cwd : String) (s : VFS) (ops : List Op) : VFS :=
  ops.foldl (VFS.step cwd) s

instance {ε α : Type} [DecidableEq ε] [DecidableEq α] : DecidableEq (Except ε α) := fun a b =>
  match a, b with
  | .error e, .error e' =>
    if h : e = e' then .isTrue (by rw [h]) else .isFalse (by simp [h])
  | .ok v, .ok v' =>
    if h : v = v' then .isTrue (by rw [h]) else .isFalse (by simp [h])
  | .error _, .ok _ => .isFalse (by simp)
  | .ok _, .error _ => .isFalse (by simp)

/-! ## Association-list lemmas -/

section EntryLemmas

variable {α : Type}

@[simp] theorem getEntry_setEntry_self (k : String) (v : α) (l : List (String × α)) :
    getEntry k (setEntry k v l) = some v := by
  induction l with
  | nil => simp [getEntry, setEntry]
  | cons p rest ih =>
    obtain ⟨k', v'⟩ := p
    by_cases h : k' = k <;> simp [getEntry, setEntry, h, ih]

theorem getEntry_setEntry_ne (x k : String) (v : α) (l : List (String × α)) (h : x ≠ k) :
    getEntry x (setEntry k v l) = getEntry x l := by
  have hkx : ¬ k = x := fun hh => h hh.symm
  induction l with
  | nil => simp [getEntry, setEntry, hkx]
  | cons p rest ih =>
    obtain ⟨k', v'⟩ := p
    by_cases hk : k' = k
    · simp [setEntry, getEntry, hk, hkx]
    · simp [setEntry, getEntry, hk, ih]

theorem getEntry_delEntry_ne (x k : String) (l : List (String × α)) (h : x ≠ k) :
    getEntry x (delEntry k l) = getEntry x l := by
  have hkx : ¬ k = x := fun hh => h hh.symm
  induction l with
  | nil => simp [delEntry]
  | cons p rest ih =>
    obtain ⟨k', v'⟩ := p
    by_cases hk : k' = k
    · simp [delEntry, getEntry, hk, hkx]
    · simp [delEntry, getEntry, hk, ih]

theorem getEntry_isSome_of_setEntry (x k : String) (v : α) (l : List (String × α))
    (h : (getEntry x (setEntry k v l)).isSome) :
    x = k ∨ (getEntry x l).isSome := by
  by_cases hx : x = k
  · exact Or.inl hx
  · right
    rwa [getEntry_setEntry_ne x k v l hx] at h

theorem getEntry_isSome_of_delEntry (x k : String) (l : List (String × α))
    (h : (getEntry x (delEntry k l)).isSome) :
    (getEntry x l).isSome := by
  induction l with
  | nil => simpa [delEntry] using h
  | cons p rest ih =>
    obtain ⟨k', v'⟩ := p
    by_cases hk : k' = k
    · simp only [delEntry, if_pos hk] at h
      simp only [getEntry]
      by_cases hx : k' = x
      · simp [hx]
      · simpa [hx] using h
    · simp only [delEntry, if_neg hk, getEntry] at h ⊢
      by_cases hx : k' = x
      · simp [hx]
      · simp only [if_neg hx] at h ⊢
        exact ih h

theorem mem_of_setEntry (p : String × α) (k : String) (v : α) (l : List (String × α))
    (h : p ∈ setEntry k v l) : p = (k, v) ∨ p ∈ l := by
  induction l with
  | nil =>
    simp [setEntry] at h
    exact Or.inl h
  | cons q rest ih =>
    obtain ⟨k', v'⟩ := q
    by_cases hk : k' = k
    · simp only [setEntry, if_pos hk] at h
      rcases List.mem_cons.mp h with h1 | h1
      · exact Or.inl h1
      · exact Or.inr (List.mem_cons_of_mem _ h1)
    · simp only [setEntry, if_neg hk] at h
      rcases List.mem_cons.mp h with h1 | h1
      · exact Or.inr (by simp [h1])
      · rcases ih h1 with h2 | h2
        · exact Or.inl h2
        · exact Or.inr (List.mem_cons_of_mem _ h2)

theorem mem_of_delEntry (p : String × α) (k : String) (l : List (String × α))
    (h : p ∈ delEntry k l) : p ∈ l := by
  induction l with
  | nil => simp [delEntry] at h
  | cons q rest ih =>
    obtain ⟨k', v'⟩ := q
    by_cases hk : k' = k
    · simp only [delEntry, if_pos hk] at h
      exact List.mem_cons_of_mem _ h
    · simp only [delEntry, if_neg hk] at h
      rcases List.mem_cons.mp h with h1 | h1
      · simp [h1]
      · exact List.mem_cons_of_mem _ (ih h1)

theorem mem_of_getEntry (k : String) (v : α) (l : List (String × α))
    (h : getEntry k l = some v) : (k, v) ∈ l := by
  induction l with
  | nil => simp [getEntry] at h
  | cons q rest ih =>
    obtain ⟨k', v'⟩ := q
    by_cases hk : k' = k
    · simp only [getEntry, if_pos hk] at h
      simp only [Option.some.injEq] at h
      simp [hk, h]
    · simp only [getEntry, if_neg hk] at h
      exact List.mem_cons_of_mem _ (ih h)

theorem setEntry_setEntry_same (k : String) (v w : α) (l : List (String × α)) :
    setEntry k v (setEntry k w l) = setEntry k v l := by
  induction l with
  | nil => simp [setEntry]
  | cons q rest ih =>
    obtain ⟨k', v'⟩ := q
    by_cases hk : k' = k <;> simp [setEntry, hk, ih]

theorem delEntry_setEntry_same (k : String) (v : α) (l : List (String × α)) :
    delEntry k (setEntry k v l) = delEntry k l := by
  induction l with
  | nil => simp [setEntry, delEntry]
  | cons q rest ih =>
    obtain ⟨k', v'⟩ := q
    by_cases hk : k' = k <;> simp [setEntry, delEntry, hk, ih]

theorem getEntry_eq_none_of_not_mem_keys (k : String) (l : List (String × α))
    (h : k ∉ l.map Prod.fst) : getEntry k l = none := by
  induction l with
  | nil => simp [getEntry]
  | cons q rest ih =>
    obtain ⟨k', v'⟩ := q
    simp only [List.map_cons, List.mem_cons, not_or] at h
    obtain ⟨h1, h2⟩ := h
    have hne : ¬ k' = k := fun hh => h1 hh.symm
    simp only [getEntry, if_neg hne]
    exact ih h2

theorem delEntry_of_not_mem_keys (k : String) (l : List (String × α))
    (h : k ∉ l.map Prod.fst) : delEntry k l = l := by
  induction l with
  | nil => simp [delEntry]
  | cons q rest ih =>
    obtain ⟨k', v'⟩ := q
    simp only [List.map_cons, List.mem_cons, not_or] at h
    obtain ⟨h1, h2⟩ := h
    have hne : ¬ k' = k := fun hh => h1 hh.symm
    simp only [delEntry, if_neg hne]
    rw [ih h2]

theorem not_mem_keys_delEntry_of_nodup (k : String) (l : List (String × α))
    (h : (l.map Prod.fst).Nodup) : k ∉ (delEntry k l).map Prod.fst := by
  induction l with
  | nil => simp [delEntry]
  | cons q rest ih =>
    obtain ⟨k', v'⟩ := q
    simp only [List.map_cons, List.nodup_cons] at h
    by_cases hk : k' = k
    · simp only [delEntry, if_pos hk]
      rw [← hk]
      exact h.1
    · simp only [delEntry, if_neg hk, List.map_cons, List.mem_cons, not_or]
      exact ⟨fun hh => hk hh.symm, ih h.2⟩

theorem delEntry_delEntry_of_nodup (k : String) (l : List (String × α))
    (h : (l.map Prod.fst).Nodup) : delEntry k (delEntry k l) = delEntry k l :=
  delEntry_of_not_mem_keys k _ (not_mem_keys_delEntry_of_nodup k l h)

end EntryLemmas

/-! ## Tree-position lemmas -/

@[simp] theorem Dir.name_mk (n : String) (ds : List (String × Dir))
    (fs : List (String × FileObj)) : (Dir.mk n ds fs).name = n := rfl

@[simp] theorem Dir.dirs_mk (n : String) (ds : List (String × Dir))
    (fs : List (String × FileObj)) : (Dir.mk n ds fs).dirs = ds := rfl

@[simp] theorem Dir.files_mk (n : String) (ds : List (String × Dir))
    (fs : List (String × FileObj)) : (Dir.mk n ds fs).files = fs := rfl

@[simp] theorem Dir.dirs_withDirs (d : Dir) (l : List (String × Dir)) :
    (d.withDirs l).dirs = l := by cases d; rfl

@[simp] theorem Dir.files_withDirs (d : Dir) (l : List (String × Dir)) :
    (d.withDirs l).files = d.files := by cases d; rfl

@[simp] theorem Dir.name_withDirs (d : Dir) (l : List (String × Dir)) :
    (d.withDirs l).name = d.name := by cases d; rfl

@[simp] theorem Dir.dirs_withFiles (d : Dir) (l : List (String × FileObj)) :
    (d.withFiles l).dirs = d.dirs := by cases d; rfl

@[simp] theorem Dir.files_withFiles (d : Dir) (l : List (String × FileObj)) :
    (d.withFiles l).files = l := by cases d; rfl

@[simp] theorem Dir.name_withFiles (d : Dir) (l : List (String × FileObj)) :
    (d.withFiles l).name = d.name := by cases d; rfl

theorem Dir.withDirs_withDirs (d : Dir) (l l' : List (String × Dir)) :
    (d.withDirs l).withDirs l' = d.withDirs l' := by cases d; rfl

theorem Dir.withFiles_withFiles (d : Dir) (l l' : List (String × FileObj)) :
    (d.withFiles l).withFiles l' = d.withFiles l' := by cases d; rfl

theorem dirAtPos_updateAt (pos : Pos) (r : Dir) (f : Dir → Dir) (d : Dir)
    (h : dirAtPos r pos = some d) :
    dirAtPos (updateAt r pos f) pos = some (f d) := by
  induction pos generalizing r d with
  | nil =>
    simp [dirAtPos] at h
    simp [dirAtPos, updateAt, h]
  | cons k rest ih =>
    simp only [dirAtPos] at h
    cases hk : getEntry k r.dirs with
    | none => rw [hk] at h; exact absurd h (by simp)
    | some c =>
      rw [hk] at h
      simp only [updateAt, hk]
      simp only [dirAtPos, Dir.dirs_withDirs, getEntry_setEntry_self]
      exact ih c d h

theorem updateAt_updateAt (pos : Pos) (r : Dir) (f g : Dir → Dir) :
    updateAt (updateAt r pos f) pos g = updateAt r pos (fun d => g (f d)) := by
  induction pos generalizing r with
  | nil => simp [updateAt]
  | cons k rest ih =>
    cases hk : getEntry k r.dirs with
    | none => simp [updateAt, hk]
    | some c =>
      simp only [updateAt, hk, Dir.dirs_withDirs, getEntry_setEntry_self,
        Dir.withDirs_withDirs, setEntry_setEntry_same]
      rw [ih]

theorem updateAt_congr (pos : Pos) (r : Dir) (f g : Dir → Dir)
    (h : ∀ d, dirAtPos r pos = some d → f d = g d) :
    updateAt r pos f = updateAt r pos g := by
  induction pos generalizing r with
  | nil => simp [updateAt, h r (by simp [dirAtPos])]
  | cons k rest ih =>
    cases hk : getEntry k r.dirs with
    | none => simp [updateAt, hk]
    | some c =>
      simp only [updateAt, hk]
      rw [ih c (fun d hd => h d (by simp [dirAtPos, hk, hd]))]

/-! ## Resolution facts -/

theorem getTargetDirectory_spec (s : VFS) (p : String) (pos : Pos) (d : Dir)
    (h : s.getTargetDirectory p = some (pos, d)) : dirAtPos s.root pos = some d := by
  simp only [VFS.getTargetDirectory] at h
  split at h
  · exact absurd h (by simp)
  · rcases Option.map_eq_some'.mp h with ⟨a, ha, hpair⟩
    injection hpair with h1 h2
    subst h1
    subst h2
    exact ha

theorem getTargetFile_spec (s : VFS) (p : String) (pos : Pos) (key : String) (f : FileObj)
    (h : s.getTargetFile p = some (pos, key, f)) :
    ∃ d, dirAtPos s.root pos = some d ∧ getEntry key d.files = some f := by
  simp only [VFS.getTargetFile] at h
  split at h
  · exact absurd h (by simp)
  · split at h
    · exact absurd h (by simp)
    · split at h
      · simp only [Option.some.injEq, Prod.mk.injEq] at h
        obtain ⟨h1, h2, h3⟩ := h
        subst h1
        subst h2
        subst h3
        exact ⟨_, by assumption, by assumption⟩
      · exact absurd h (by simp)

/-! ## Concrete scenario states -/

/-- The process working directory handed to `path.resolve`; its value is
irrelevant to the scenarios below. -/
def demoCwd : String := "/cwd"

/-- Directory `/foo`, directory `/foo/bar`, file `/foo/bar/foo`. -/
def findScenario : VFS :=
  VFS.run demoCwd VFS.init
    [.makeDirectory "/foo", .makeDirectory "/foo/bar", .makeFile "/foo/bar/foo"]

/-- Directory `foo` containing a file also named `foo`. -/
def findScenarioMatchedDir : VFS :=
  VFS.run demoCwd VFS.init [.makeDirectory "foo", .makeFile "foo/foo"]

/-- Directory `d` and file `f` in the root. -/
def renameCollisionBase : VFS :=
  VFS.run demoCwd VFS.init [.makeDirectory "d", .makeFile "f"]

/-- A file `a` holding the five-byte content `hello`. -/
def writeScenario : VFS :=
  VFS.run demoCwd VFS.init [.makeFile "a", .writeFile "a" "hello"]

/-- Capacity limit set to one byte, then an empty file `a`. -/
def oomScenario : VFS := ({ VFS.init with maxBytes := 1 }.makeFile "a").2

/-! ## Claims -/

/-- C7: in the state built by creating directory `/foo`, directory
`/foo/bar` and file `/foo/bar/foo`, `find('foo')` started at the root
returns exactly `['/foo', '/foo/bar/foo']` in that order; the second
conjunct (a file `foo` inside a directory `foo`) shows that at each level
the same-named file is checked first, then each child directory is checked
and descended into even when its own name matched. -/
theorem C7_find_scenario :
    (findScenario.find "foo" none).1 = Except.ok ["/foo", "/foo/bar/foo"] ∧
    (findScenarioMatchedDir.find "foo" none).1 = Except.ok ["/foo", "/foo/foo"] := by
  constructor
  · decide
  · decide

/-- C8: in every state and for every name `x`, `removeDirectory('/')`,
`renameDirectory('/', x)` and `moveDirectory('/', x)` fail with
`CannotUpdateRoot` and leave the whole state (tree, current directory and
byte counter) unchanged. -/
theorem C8_root_protection (s : VFS) (x cwd : String) :
    s.removeDirectory ROOT_PATH = (.error .CannotUpdateRoot, s) ∧
    s.renameDirectory ROOT_PATH x = (.error .CannotUpdateRoot, s) ∧
    VFS.moveDirectory cwd s ROOT_PATH x = (.error .CannotUpdateRoot, s) :=
  ⟨rfl, rfl, rfl⟩

/-- C10: `moveFile`, `moveDirectory`, `renameFile` and `renameDirectory`
never change `totalContentBytes`, whether they succeed (including when the
destination entry is silently replaced, whose bytes hence stay counted) or
throw. -/
theorem C10_moves_preserve_counter (cwd : String) (s : VFS) (p t n : String) :
    (s.moveFile p t).2.totalFileContentBytes = s.totalFileContentBytes ∧
    (VFS.moveDirectory cwd s p t).2.totalFileContentBytes = s.totalFileContentBytes ∧
    (s.renameFile p n).2.totalFileContentBytes = s.totalFileContentBytes ∧
    (s.renameDirectory p n).2.totalFileContentBytes = s.totalFileContentBytes := by
  refine ⟨?_, ?_, ?_, ?_⟩
  · unfold VFS.moveFile
    dsimp only
    repeat' first | rfl | split
  · unfold VFS.moveDirectory
    dsimp only
    repeat' first | rfl | split
  · unfold VFS.renameFile
    dsimp only
    repeat' first | rfl | split
  · unfold VFS.renameDirectory
    dsimp only
    repeat' first | rfl | split

/-- C3 counterexample: `makeFile('')` does not fail with `MissingPath`;
from the fresh state it succeeds and creates a file keyed `.` in the
current (root) directory, refuting the claim that both `makeDirectory`
and `makeFile` reject the empty path and create no node. -/
theorem C3_counterexample :
    (VFS.init.makeFile "").1 = Except.ok () ∧
    (VFS.init.makeFile "").2.root.files.map Prod.fst = ["."] := by
  constructor
  · decide
  · decide

/-- C3 (amended): `makeDirectory('')` fails with `MissingPath` and changes
no state, but `makeFile` has no empty-path check: the empty path
normalizes to `.`, and (when the current directory is attached and has no
child directory named `.`) a file keyed `.` with no content is created in
the current directory. -/
theorem C3_empty_path (s : VFS) (cd : Dir)
    (hcd : s.currentDirValue = some cd) (hdot : cd.hasDirectory "." = false) :
    s.makeDirectory "" = (.error .MissingPath, s) ∧
    s.makeFile "" = (.ok (), { s with root := (updateAt s.root s.currentDirPos
        (fun _ => cd.withFiles (setEntry "." (FileObj.make "." none) cd.files))) }) := by
  constructor
  · rfl
  · have hcd' : dirAtPos s.root s.currentDirPos = some cd := hcd
    have h1 : s.getTargetDirectory (dirname (normalize "")) = some (s.currentDirPos, cd) := by
      simp only [VFS.getTargetDirectory,
        show s.resolveDirPos (dirname (normalize "")) = some s.currentDirPos from rfl,
        hcd', Option.map]
    simp only [VFS.makeFile]
    rw [h1]
    simp only [Dir.createAndAddFile, Dir.addFile,
      show basename (normalize "") = "." from rfl,
      show (FileObj.make "." none).name = "." from rfl, hdot]
    rfl

/-- C3 witness: the amended claim evaluated on the fresh filesystem. -/
theorem C3_empty_path_witness :
    VFS.init.makeDirectory "" = (.error .MissingPath, VFS.init) ∧
    VFS.init.makeFile "" = (.ok (), { VFS.init with root :=
      (updateAt VFS.init.root VFS.init.currentDirPos
        (fun _ => (Dir.mk ROOT_PATH [] []).withFiles
          (setEntry "." (FileObj.make "." none) (Dir.mk ROOT_PATH [] []).files))) }) :=
  C3_empty_path VFS.init (Dir.mk ROOT_PATH [] []) rfl rfl

/-- C2: when the file at `path` exists and the capacity check passes,
`writeFile(path, content)` succeeds, replaces that file's content (and
cached byte count) with the given value, and increases
`totalContentBytes` by exactly `byteLength(content)` — an additive update
that never subtracts the file's previous size. -/
theorem C2_writeFile_additive (s : VFS) (path content : String) (pPos : Pos)
    (key : String) (f : FileObj)
    (hres : s.getTargetFile path = some (pPos, key, f))
    (hcap : ¬ s.totalFileContentBytes + (byteLength content : Int) > s.maxBytes) :
    s.writeFile path content =
      (.ok (), { s with
        root := (updateAt s.root pPos (fun d => d.withFiles (setEntry key
          { f with content := some content,
                   contentByteCount := some (byteLength content) } d.files)))
        totalFileContentBytes := s.totalFileContentBytes + byteLength content }) := by
  unfold VFS.writeFile
  rw [hres]
  simp [hcap]

/-- C2 witness: a second write of `xx` to a file already holding `hello`
adds 2 to the counter (which still holds the 5 from the first write). -/
theorem C2_writeFile_additive_witness :
    writeScenario.writeFile "a" "xx" =
      (.ok (), { writeScenario with
        root := (updateAt writeScenario.root [] (fun d => d.withFiles (setEntry "a"
          (FileObj.mk "a" (some "xx") (some (byteLength "xx"))) d.files)))
        totalFileContentBytes := writeScenario.totalFileContentBytes + byteLength "xx" }) :=
  C2_writeFile_additive writeScenario "a" "xx" [] "a"
    (FileObj.mk "a" (some "hello") (some 5)) (by decide) (by decide)

/-- C6: for an existing file, `writeFile` fails with `OutOfMemory` exactly
when `totalContentBytes + byteLength(content) > capacityLimit`, and on
that failure the whole state (so also the file's content and the counter)
is unchanged. -/
theorem C6_writeFile_oom (s : VFS) (path content : String) (r : Pos × String × FileObj)
    (hres : s.getTargetFile path = some r) :
    ((s.writeFile path content).1 = .error .OutOfMemory ↔
      s.totalFileContentBytes + (byteLength content : Int) > s.maxBytes) ∧
    (s.totalFileContentBytes + (byteLength content : Int) > s.maxBytes →
      s.writeFile path content = (.error .OutOfMemory, s)) := by
  obtain ⟨pPos, key, f⟩ := r
  unfold VFS.writeFile
  rw [hres]
  constructor
  · by_cases hcap : s.totalFileContentBytes + (byteLength content : Int) > s.maxBytes
    · simp [hcap]
    · simp [hcap]
  · intro hcap
    simp [hcap]

/-- C6 witness: with `capacityLimit = 1`, after `makeFile('a')`,
`writeFile('a', 'xx')` fails with `OutOfMemory` and `totalContentBytes`
remains 0. -/
theorem C6_writeFile_oom_witness :
    oomScenario.writeFile "a" "xx" = (.error .OutOfMemory, oomScenario) ∧
    oomScenario.totalFileContentBytes = 0 :=
  ⟨(C6_writeFile_oom oomScenario "a" "xx" ([], "a", FileObj.mk "a" none none)
      (by decide)).2 (by decide), by decide⟩

/-- C1 counterexample: after creating directory `d` and file `f`,
`renameFile('f', 'd')` throws `AmbiguousPath` but the observable state
afterwards differs from the state before the call (the file object's
`name` field has become `d`), refuting the claim that every failing
operation leaves the state unchanged. -/
theorem C1_counterexample :
    (renameCollisionBase.renameFile "f" "d").1 = Except.error Err.AmbiguousPath ∧
    (renameCollisionBase.renameFile "f" "d").2 ≠ renameCollisionBase := by
  refine ⟨by decide, fun h => ?_⟩
  have h2 := congrArg (fun st => st.root.files) h
  exact absurd h2 (by decide)

/-- When `renameFile(path, name)` fails with `AmbiguousPath` because a
directory of the target name exists in the file's parent, the parent's
collections (keys), the file's content, `currentDirectory` and
`totalContentBytes` are all unchanged, but the file's `name` field has
already been set to the requested new name. -/
theorem renameFile_partial_mutation (s : VFS) (path name : String) (pPos : Pos) (key : String)
    (f : FileObj) (parent : Dir)
    (hres : s.getTargetFile path = some (pPos, key, f))
    (hparent : dirAtPos s.root pPos = some parent)
    (hdir : parent.hasDirectory name = true) :
    s.renameFile path name =
      (.error .AmbiguousPath, { s with root := (updateAt s.root pPos
        (fun d => d.withFiles (setEntry key { f with name := name } d.files))) }) := by
  unfold VFS.renameFile
  rw [hres]
  simp [hparent, hdir]

/-- The partial-mutation characterization evaluated on the `d`/`f`
scenario. -/
theorem renameFile_partial_mutation_example :
    renameCollisionBase.renameFile "f" "d" =
      (.error .AmbiguousPath, { renameCollisionBase with root :=
        (updateAt renameCollisionBase.root []
          (fun d => d.withFiles (setEntry "f"
            (FileObj.mk "d" none none) d.files))) }) :=
  renameFile_partial_mutation renameCollisionBase "f" "d" [] "f"
    (FileObj.mk "f" none none) renameCollisionBase.root (by decide) rfl (by decide)

/-- A single file `x` in the root. -/
def selfMoveScenario : VFS := VFS.run demoCwd VFS.init [.makeFile "x"]

/-- C9 (amended): `moveFile` whose target directory resolves to the
file's own parent removes the file from the tree entirely (the
post-state's only difference is the deletion of the file's entry),
because `addFile` re-inserts it in place and `removeFile` then deletes
that very entry; likewise `renameFile` with the file's current name as
the new name deletes the file. This holds exactly for files whose stored
`name` field equals the key they are stored under (the `f.name = key`
hypothesis, true of every file never caught in a failed rename); the
counterexample shows a reachable divergent file that survives its
self-move. The remaining hypotheses state the resolutions and
uncontended well-formedness facts (no same-named directory, unique
keys). -/
theorem C9_self_move_removes (s : VFS) (path tpath : String) (pPos : Pos)
    (key : String) (f : FileObj) (tDir parent : Dir) :
    (s.getTargetFile path = some (pPos, key, f) →
      s.getTargetDirectory tpath = some (pPos, tDir) →
      f.name = key →
      tDir.hasDirectory key = false →
      s.moveFile path tpath = (.ok (), { s with root :=
        (updateAt s.root pPos (fun d => d.withFiles (delEntry key d.files))) })) ∧
    (s.getTargetFile path = some (pPos, key, f) →
      f.name = key →
      basename path = key →
      dirAtPos s.root pPos = some parent →
      parent.hasDirectory key = false →
      (parent.files.map Prod.fst).Nodup →
      s.renameFile path key = (.ok (), { s with root :=
        (updateAt s.root pPos (fun d => d.withFiles (delEntry key d.files))) })) := by
  constructor
  · intro hres htgt hname hnd
    have htd : dirAtPos s.root pPos = some tDir := getTargetDirectory_spec s tpath pPos tDir htgt
    have haf : tDir.addFile f = .ok (tDir.withFiles (setEntry key f tDir.files)) := by
      unfold Dir.addFile
      rw [hname, hnd]
      simp
    unfold VFS.moveFile
    rw [hres, htgt]
    simp only [haf]
    try dsimp only
    simp only [hname]
    rw [updateAt_updateAt]
    try dsimp only
    have hfun : ∀ d, dirAtPos s.root pPos = some d →
        Dir.removeFile (tDir.withFiles (setEntry key f tDir.files)) key =
          d.withFiles (delEntry key d.files) := by
      intro d hd
      rw [htd] at hd
      injection hd with hd
      subst hd
      unfold Dir.removeFile
      rw [Dir.withFiles_withFiles]
      simp only [Dir.files_withFiles]
      rw [delEntry_setEntry_same]
    rw [updateAt_congr pPos s.root _ _ hfun]
  · intro hres hname hbase hparent hnd hnodup
    unfold VFS.renameFile
    rw [hres]
    simp only [hbase, hname, hparent, Option.getD_some, hnd]
    simp only [Bool.false_eq_true, if_false]
    rw [updateAt_updateAt, updateAt_updateAt, updateAt_updateAt]
    have hfun : ∀ d, dirAtPos s.root pPos = some d →
        Dir.removeFile (Dir.removeFile
          ((d.withFiles (setEntry key { f with name := key } d.files)).withFiles
            (setEntry key { f with name := key }
              (d.withFiles (setEntry key { f with name := key } d.files)).files)) key) key =
          d.withFiles (delEntry key d.files) := by
      intro d hd
      rw [hparent] at hd
      injection hd with hd
      subst hd
      unfold Dir.removeFile
      simp only [Dir.files_withFiles, Dir.withFiles_withFiles]
      rw [setEntry_setEntry_same, delEntry_setEntry_same,
        delEntry_delEntry_of_nodup key _ hnodup]
    exact congrArg (fun r => (Except.ok (), { s with root := r }))
      (updateAt_congr pPos s.root _ _ hfun)

/-- C9 witness: with a single file `x` in the root, `moveFile('x', '/')`
and `renameFile('x', 'x')` both delete the file. -/
theorem C9_self_move_removes_witness :
    selfMoveScenario.moveFile "x" "/" = (.ok (), { selfMoveScenario with root :=
      (updateAt selfMoveScenario.root [] (fun d => d.withFiles (delEntry "x" d.files))) }) ∧
    selfMoveScenario.renameFile "x" "x" = (.ok (), { selfMoveScenario with root :=
      (updateAt selfMoveScenario.root [] (fun d => d.withFiles (delEntry "x" d.files))) }) :=
  ⟨(C9_self_move_removes selfMoveScenario "x" "/" [] "x" (FileObj.mk "x" none none)
      selfMoveScenario.root selfMoveScenario.root).1 rfl rfl rfl rfl,
   (C9_self_move_removes selfMoveScenario "x" "/" [] "x" (FileObj.mk "x" none none)
      selfMoveScenario.root selfMoveScenario.root).2 rfl rfl rfl rfl rfl (by decide)⟩

/-! ## The uniqueness invariant -/

/-- In every directory of the tree, no name is simultaneously a key of the
child-directory collection and of the child-file collection. -/
inductive Dir.Inv : Dir → Prop where
  | mk (n : String) (ds : List (String × Dir)) (fs : List (String × FileObj))
      (hdisj : ∀ k, (getEntry k ds).isSome → getEntry k fs = none)
      (hsub : ∀ p ∈ ds, Dir.Inv p.2) :
      Dir.Inv (.mk n ds fs)

theorem Dir.Inv.disj {d : Dir} (h : d.Inv) (k : String)
    (hk : (getEntry k d.dirs).isSome) : getEntry k d.files = none := by
  cases h with
  | mk n ds fs hdisj hsub => exact hdisj k hk

theorem Dir.Inv.sub {d : Dir} (h : d.Inv) (p : String × Dir) (hp : p ∈ d.dirs) :
    p.2.Inv := by
  cases h with
  | mk n ds fs hdisj hsub => exact hsub p hp

theorem Dir.Inv.intro (d : Dir)
    (hdisj : ∀ k, (getEntry k d.dirs).isSome → getEntry k d.files = none)
    (hsub : ∀ p ∈ d.dirs, Dir.Inv p.2) : d.Inv := by
  cases d with
  | mk n ds fs => exact .mk n ds fs hdisj hsub

theorem Dir.Inv.dirs_none_of_file {d : Dir} (h : d.Inv) (k : String) (fo : FileObj)
    (hf : getEntry k d.files = some fo) : getEntry k d.dirs = none := by
  cases hg : getEntry k d.dirs with
  | none => rfl
  | some c =>
    have h2 := h.disj k (by simp [hg])
    rw [hf] at h2
    exact absurd h2 (by simp)

/-- Renaming a directory (keeping its collections) preserves the invariant. -/
theorem Dir.Inv.rename {d : Dir} (h : d.Inv) (n : String) :
    Dir.Inv (.mk n d.dirs d.files) :=
  Dir.Inv.intro _ (fun k hk => h.disj k (by simpa using hk))
    (fun p hp => h.sub p (by simpa using hp))

theorem Inv_empty (n : String) : Dir.Inv (.mk n [] []) :=
  .mk n [] [] (fun k hk => by simp [getEntry] at hk) (fun p hp => by simp at hp)

theorem Inv_subtree (pos : Pos) (r : Dir) (d : Dir) (hr : r.Inv)
    (h : dirAtPos r pos = some d) : d.Inv := by
  induction pos generalizing r with
  | nil =>
    simp [dirAtPos] at h
    rwa [← h]
  | cons k rest ih =>
    simp only [dirAtPos] at h
    cases hk : getEntry k r.dirs with
    | none => rw [hk] at h; exact absurd h (by simp)
    | some c =>
      rw [hk] at h
      exact ih c (hr.sub (k, c) (mem_of_getEntry k c r.dirs hk)) h

theorem Inv_updateAt (pos : Pos) (r : Dir) (f : Dir → Dir) (hr : r.Inv)
    (hf : ∀ d, dirAtPos r pos = some d → d.Inv → (f d).Inv) :
    (updateAt r pos f).Inv := by
  induction pos generalizing r with
  | nil => exact hf r (by simp [dirAtPos]) hr
  | cons k rest ih =>
    cases hk : getEntry k r.dirs with
    | none => simpa [updateAt, hk] using hr
    | some c =>
      simp only [updateAt, hk]
      apply Dir.Inv.intro
      · intro x hx
        simp only [Dir.dirs_withDirs] at hx
        simp only [Dir.files_withDirs]
        rcases getEntry_isSome_of_setEntry x k _ _ hx with hxk | hx'
        · subst hxk
          exact hr.disj x (by simp [hk])
        · exact hr.disj x hx'
      · intro p hp
        simp only [Dir.dirs_withDirs] at hp
        rcases mem_of_setEntry p k _ _ hp with hpe | hpm
        · rw [hpe]
          exact ih c (hr.sub (k, c) (mem_of_getEntry k c r.dirs hk))
            (fun d hd hdi => hf d (by simp [dirAtPos, hk, hd]) hdi)
        · exact hr.sub p hpm

theorem Inv_withFiles_set (d : Dir) (k : String) (fo : FileObj) (h : d.Inv)
    (hnd : getEntry k d.dirs = none) :
    (d.withFiles (setEntry k fo d.files)).Inv := by
  apply Dir.Inv.intro
  · intro x hx
    simp only [Dir.dirs_withFiles] at hx
    simp only [Dir.files_withFiles]
    have hxk : x ≠ k := by
      intro he
      rw [he, hnd] at hx
      simp at hx
    rw [getEntry_setEntry_ne x k fo d.files hxk]
    exact h.disj x hx
  · intro p hp
    simp only [Dir.dirs_withFiles] at hp
    exact h.sub p hp

theorem Inv_withFiles_del (d : Dir) (k : String) (h : d.Inv) :
    (d.withFiles (delEntry k d.files)).Inv := by
  apply Dir.Inv.intro
  · intro x hx
    simp only [Dir.dirs_withFiles] at hx
    simp only [Dir.files_withFiles]
    have h2 := h.disj x hx
    cases hg : getEntry x (delEntry k d.files) with
    | none => rfl
    | some v =>
      have h3 := getEntry_isSome_of_delEntry x k d.files (by simp [hg])
      rw [h2] at h3
      exact absurd h3 (by simp)
  · intro p hp
    simp only [Dir.dirs_withFiles] at hp
    exact h.sub p hp

theorem Inv_withDirs_del (d : Dir) (k : String) (h : d.Inv) :
    (d.withDirs (delEntry k d.dirs)).Inv := by
  apply Dir.Inv.intro
  · intro x hx
    simp only [Dir.dirs_withDirs] at hx
    simp only [Dir.files_withDirs]
    exact h.disj x (getEntry_isSome_of_delEntry x k d.dirs hx)
  · intro p hp
    simp only [Dir.dirs_withDirs] at hp
    exact h.sub p (mem_of_delEntry p k d.dirs hp)

theorem Inv_withDirs_set (d : Dir) (k : String) (c : Dir) (h : d.Inv) (hc : c.Inv)
    (hnf : getEntry k d.files = none) :
    (d.withDirs (setEntry k c d.dirs)).Inv := by
  apply Dir.Inv.intro
  · intro x hx
    simp only [Dir.dirs_withDirs] at hx
    simp only [Dir.files_withDirs]
    rcases getEntry_isSome_of_setEntry x k _ _ hx with hxk | hx'
    · rw [hxk]
      exact hnf
    · exact h.disj x hx'
  · intro p hp
    simp only [Dir.dirs_withDirs] at hp
    rcases mem_of_setEntry p k _ _ hp with hpe | hpm
    · rw [hpe]
      exact hc
    · exact h.sub p hpm

/-! ## Inversion of the node primitives -/

theorem hasFile_eq_false (d : Dir) (k : String) (h : d.hasFile k = false) :
    getEntry k d.files = none := by
  unfold Dir.hasFile at h
  exact Option.not_isSome_iff_eq_none.mp (by simp [h])

theorem hasDirectory_eq_false (d : Dir) (k : String) (h : d.hasDirectory k = false) :
    getEntry k d.dirs = none := by
  unfold Dir.hasDirectory at h
  exact Option.not_isSome_iff_eq_none.mp (by simp [h])

theorem addFile_ok (d : Dir) (fo : FileObj) (d' : Dir)
    (h : d.addFile fo = .ok d') :
    d.hasDirectory fo.name = false ∧ d' = d.withFiles (setEntry fo.name fo d.files) := by
  unfold Dir.addFile at h
  by_cases hc : d.hasDirectory fo.name = true
  · rw [if_pos hc] at h
    exact absurd h (by simp)
  · rw [if_neg hc] at h
    simp only [Except.ok.injEq] at h
    exact ⟨by simpa using hc, h.symm⟩

theorem addDirectory_ok (d : Dir) (c : Dir) (d' : Dir)
    (h : d.addDirectory c = .ok d') :
    d.hasFile c.name = false ∧ d' = d.withDirs (setEntry c.name c d.dirs) := by
  unfold Dir.addDirectory at h
  by_cases hc : d.hasFile c.name = true
  · rw [if_pos hc] at h
    exact absurd h (by simp)
  · rw [if_neg hc] at h
    simp only [Except.ok.injEq] at h
    exact ⟨by simpa using hc, h.symm⟩

theorem createAndAddDirectory_ok (d : Dir) (nm : String) (d' : Dir)
    (h : d.createAndAddDirectory nm = .ok d') :
    d.hasFile nm = false ∧ d' = d.withDirs (setEntry nm (Dir.mk nm [] []) d.dirs) := by
  unfold Dir.createAndAddDirectory at h
  by_cases hr : nm = ROOT_PATH
  · rw [if_pos hr] at h
    exact absurd h (by simp)
  · rw [if_neg hr] at h
    simpa using addDirectory_ok d (Dir.mk nm [] []) d' h

theorem createAndAddFile_ok (d : Dir) (nm : String) (d' : Dir)
    (h : d.createAndAddFile nm none = .ok d') :
    d.hasDirectory nm = false ∧
      d' = d.withFiles (setEntry nm (FileObj.make nm none) d.files) := by
  unfold Dir.createAndAddFile at h
  simpa using addFile_ok d (FileObj.make nm none) d' h

theorem dirAtPos_dropLast (pos : Pos) (r d : Dir) (hne : pos ≠ [])
    (h : dirAtPos r pos = some d) :
    ∃ pd, dirAtPos r pos.dropLast = some pd ∧
      getEntry (pos.getLast?.getD "") pd.dirs = some d := by
  induction pos generalizing r with
  | nil => exact absurd rfl hne
  | cons k rest ih =>
    cases rest with
    | nil =>
      simp only [dirAtPos] at h
      cases hk : getEntry k r.dirs with
      | none => rw [hk] at h; exact absurd h (by simp)
      | some c =>
        rw [hk] at h
        simp only [dirAtPos] at h
        refine ⟨r, by simp [dirAtPos], ?_⟩
        simp only [List.getLast?_singleton, Option.getD_some]
        rw [hk, h]
    | cons k2 rest2 =>
      simp only [dirAtPos] at h
      cases hk : getEntry k r.dirs with
      | none => rw [hk] at h; exact absurd h (by simp)
      | some c =>
        rw [hk] at h
        obtain ⟨pd, hpd, hg⟩ := ih c (by simp) h
        refine ⟨pd, ?_, ?_⟩
        · rw [show (k :: k2 :: rest2).dropLast = k :: (k2 :: rest2).dropLast from rfl]
          simp only [dirAtPos, hk]
          exact hpd
        · rw [show (k :: k2 :: rest2).getLast? = (k2 :: rest2).getLast? from rfl]
          exact hg

/-! ## Invariant preservation, operation by operation -/

theorem Inv_changeDirectory (s : VFS) (p : Option String) (h : s.root.Inv) :
    (s.changeDirectory p).2.root.Inv := by
  unfold VFS.changeDirectory
  try dsimp only
  repeat' first | exact h | split

theorem Inv_getDirectoryContents (s : VFS) (p : Option String) (h : s.root.Inv) :
    (s.getDirectoryContents p).2.root.Inv := by
  unfold VFS.getDirectoryContents VFS.getDirectoryContentsOfCurrent
  try dsimp only
  repeat' first | exact h | split

theorem Inv_readFile (s : VFS) (p : String) (h : s.root.Inv) :
    (s.readFile p).2.root.Inv := by
  unfold VFS.readFile
  try dsimp only
  repeat' first | exact h | split

theorem Inv_find (s : VFS) (n : String) (p : Option String) (h : s.root.Inv) :
    (s.find n p).2.root.Inv := h

theorem Inv_makeDirectory (s : VFS) (p : String) (h : s.root.Inv) :
    (s.makeDirectory p).2.root.Inv := by
  unfold VFS.makeDirectory
  try dsimp only
  split
  · exact h
  · split
    · exact h
    · next pos d heq =>
      split
      · exact h
      · next d' heq2 =>
        obtain ⟨hnf, hd'⟩ := createAndAddDirectory_ok d _ d' heq2
        have hdp := getTargetDirectory_spec s _ pos d heq
        apply Inv_updateAt pos s.root _ h
        intro dd hdd hinv
        rw [hdp] at hdd
        obtain rfl : d = dd := Option.some.inj hdd
        rw [hd']
        exact Inv_withDirs_set d _ _ hinv (Inv_empty _) (hasFile_eq_false d _ hnf)

theorem Inv_makeFile (s : VFS) (p : String) (h : s.root.Inv) :
    (s.makeFile p).2.root.Inv := by
  unfold VFS.makeFile
  try dsimp only
  split
  · exact h
  · next pos d heq =>
    split
    · exact h
    · next d' heq2 =>
      obtain ⟨hnd, hd'⟩ := createAndAddFile_ok d _ d' heq2
      have hdp := getTargetDirectory_spec s _ pos d heq
      apply Inv_updateAt pos s.root _ h
      intro dd hdd hinv
      rw [hdp] at hdd
      obtain rfl : d = dd := Option.some.inj hdd
      rw [hd']
      exact Inv_withFiles_set d _ _ hinv (hasDirectory_eq_false d _ hnd)

theorem Inv_removeDirectory (s : VFS) (p : String) (h : s.root.Inv) :
    (s.removeDirectory p).2.root.Inv := by
  unfold VFS.removeDirectory
  try dsimp only
  split
  · exact h
  · next pos d heq =>
    split
    · exact h
    · split
      · exact h
      · apply Inv_updateAt pos.dropLast s.root _ h
        intro dd _ hinv
        exact Inv_withDirs_del dd d.name hinv

theorem Inv_removeFile (s : VFS) (p : String) (h : s.root.Inv) :
    (s.removeFile p).2.root.Inv := by
  unfold VFS.removeFile
  try dsimp only
  split
  · exact h
  · next pos key f heq =>
    by_cases ht : truthy f.content = true
    · simp only [if_pos ht]
      apply Inv_updateAt pos s.root _ h
      intro dd _ hinv
      exact Inv_withFiles_del dd f.name hinv
    · simp only [if_neg ht]
      apply Inv_updateAt pos s.root _ h
      intro dd _ hinv
      exact Inv_withFiles_del dd f.name hinv

theorem Inv_writeFile (s : VFS) (p c : String) (h : s.root.Inv) :
    (s.writeFile p c).2.root.Inv := by
  unfold VFS.writeFile
  try dsimp only
  split
  · exact h
  · next pos key f heq =>
    split
    · exact h
    · obtain ⟨d0, hd0, hgf⟩ := getTargetFile_spec s p pos key f heq
      apply Inv_updateAt pos s.root _ h
      intro dd hdd hinv
      rw [hd0] at hdd
      obtain rfl : d0 = dd := Option.some.inj hdd
      exact Inv_withFiles_set d0 key _ hinv (hinv.dirs_none_of_file key f hgf)

theorem Inv_moveFile (s : VFS) (p t : String) (h : s.root.Inv) :
    (s.moveFile p t).2.root.Inv := by
  unfold VFS.moveFile
  try dsimp only
  split
  · exact h
  · exact h
  · next pPos key f tPos tDir heq htgt =>
    split
    · exact h
    · next tDir' heq2 =>
      obtain ⟨hnd, htd'⟩ := addFile_ok tDir f tDir' heq2
      have htd := getTargetDirectory_spec s t tPos tDir htgt
      apply Inv_updateAt pPos _ _ ?_
      · intro dd _ hinv
        exact Inv_withFiles_del dd f.name hinv
      · apply Inv_updateAt tPos s.root _ h
        intro dd hdd hinv
        rw [htd] at hdd
        obtain rfl : tDir = dd := Option.some.inj hdd
        rw [htd']
        exact Inv_withFiles_set tDir _ _ hinv (hasDirectory_eq_false tDir _ hnd)

theorem Inv_renameFile (s : VFS) (p n : String) (h : s.root.Inv) :
    (s.renameFile p n).2.root.Inv := by
  unfold VFS.renameFile
  try dsimp only
  split
  · exact h
  · next pPos key f heq =>
    obtain ⟨d0, hd0, hgf⟩ := getTargetFile_spec s p pPos key f heq
    split
    · apply Inv_updateAt pPos s.root _ h
      intro dd hdd hinv
      rw [hd0] at hdd
      obtain rfl : d0 = dd := Option.some.inj hdd
      exact Inv_withFiles_set d0 key _ hinv (hinv.dirs_none_of_file key f hgf)
    · next hnd =>
      rw [updateAt_updateAt, updateAt_updateAt, updateAt_updateAt]
      apply Inv_updateAt pPos s.root _ h
      intro dd hdd hinv
      rw [hd0] at hdd
      obtain rfl : d0 = dd := Option.some.inj hdd
      rw [hd0] at hnd
      simp only [Option.getD_some] at hnd
      have hdirs_n : getEntry n d0.dirs = none :=
        hasDirectory_eq_false d0 n (by simpa using hnd)
      have h1 : (d0.withFiles (setEntry key { f with name := n } d0.files)).Inv :=
        Inv_withFiles_set d0 key _ hinv (hinv.dirs_none_of_file key f hgf)
      have h2 : ((d0.withFiles (setEntry key { f with name := n } d0.files)).withFiles
          (setEntry n { f with name := n }
            (d0.withFiles (setEntry key { f with name := n } d0.files)).files)).Inv :=
        Inv_withFiles_set _ n _ h1 (by simpa using hdirs_n)
      exact Inv_withFiles_del _ _ (Inv_withFiles_del _ _ h2)

theorem Inv_renameDirectory (s : VFS) (p n : String) (h : s.root.Inv) :
    (s.renameDirectory p n).2.root.Inv := by
  unfold VFS.renameDirectory
  try dsimp only
  split
  · exact h
  · split
    · exact h
    · next dPos dir heq =>
      split
      · exact h
      · next hne =>
        split
        · exact h
        · next hnf =>
          have hdp := getTargetDirectory_spec s p dPos dir heq
          obtain ⟨pd, hpd, hgd⟩ := dirAtPos_dropLast dPos s.root dir hne hdp
          rw [hpd] at hnf
          simp only [Option.getD_some] at hnf
          have hfiles_n : getEntry n pd.files = none :=
            hasFile_eq_false pd n (by simpa using hnf)
          have hdirInv : dir.Inv := Inv_subtree dPos s.root dir h hdp
          have hdir' : (Dir.mk n dir.dirs dir.files).Inv := hdirInv.rename n
          have hroot1 : (updateAt
              (updateAt s.root dPos.dropLast (fun q => q.withDirs
                (setEntry (dPos.getLast?.getD "") (Dir.mk n dir.dirs dir.files) q.dirs)))
              dPos.dropLast (fun q => q.withDirs
                (setEntry n (Dir.mk n dir.dirs dir.files) q.dirs))).Inv := by
            rw [updateAt_updateAt]
            apply Inv_updateAt dPos.dropLast s.root _ h
            intro dd hdd hinv
            rw [hpd] at hdd
            obtain rfl : pd = dd := Option.some.inj hdd
            have hfiles_key : getEntry (dPos.getLast?.getD "") pd.files = none :=
              hinv.disj _ (by simp [hgd])
            have hA : (pd.withDirs
                (setEntry (dPos.getLast?.getD "") (Dir.mk n dir.dirs dir.files) pd.dirs)).Inv :=
              Inv_withDirs_set pd _ _ hinv hdir' hfiles_key
            exact Inv_withDirs_set _ n _ hA hdir' (by simpa using hfiles_n)
          split
          · exact hroot1
          · have hroot2 : (updateAt (updateAt
                (updateAt s.root dPos.dropLast (fun q => q.withDirs
                  (setEntry (dPos.getLast?.getD "") (Dir.mk n dir.dirs dir.files) q.dirs)))
                dPos.dropLast (fun q => q.withDirs
                  (setEntry n (Dir.mk n dir.dirs dir.files) q.dirs)))
                dPos.dropLast (fun q => q.withDirs (delEntry dir.name q.dirs))).Inv := by
              apply Inv_updateAt dPos.dropLast _ _ hroot1
              intro dd _ hinv
              exact Inv_withDirs_del dd dir.name hinv
            split
            · exact hroot2
            · apply Inv_updateAt dPos.dropLast _ _ hroot2
              intro dd _ hinv
              exact Inv_withDirs_del dd (basename p) hinv

theorem Inv_moveDirectory (cwd : String) (s : VFS) (p t : String) (h : s.root.Inv) :
    (VFS.moveDirectory cwd s p t).2.root.Inv := by
  unfold VFS.moveDirectory
  try dsimp only
  split
  · exact h
  · split
    · exact h
    · exact h
    · next dPos dir tPos tDir heq htgt =>
      split
      · exact h
      · next tDir' heq2 =>
        obtain ⟨hnf, htd'⟩ := addDirectory_ok tDir dir tDir' heq2
        have htd := getTargetDirectory_spec s t tPos tDir htgt
        have hdp := getTargetDirectory_spec s p dPos dir heq
        have hdirInv : dir.Inv := Inv_subtree dPos s.root dir h hdp
        have hroot1 : (updateAt s.root tPos (fun _ => tDir')).Inv := by
          apply Inv_updateAt tPos s.root _ h
          intro dd hdd hinv
          rw [htd] at hdd
          obtain rfl : tDir = dd := Option.some.inj hdd
          rw [htd']
          exact Inv_withDirs_set tDir _ _ hinv hdirInv (hasFile_eq_false tDir _ hnf)
        split
        · exact hroot1
        · split
          · exact hroot1
          · split
            · exact hroot1
            · apply Inv_updateAt dPos.dropLast _ _ hroot1
              intro dd _ hinv
              exact Inv_withDirs_del dd dir.name hinv

theorem Inv_step (cwd : String) (s : VFS) (op : Op) (h : s.root.Inv) :
    (VFS.step cwd s op).root.Inv := by
  cases op with
  | changeDirectory p => exact Inv_changeDirectory s p h
  | makeDirectory p => exact Inv_makeDirectory s p h
  | makeFile p => exact Inv_makeFile s p h
  | removeDirectory p => exact Inv_removeDirectory s p h
  | removeFile p => exact Inv_removeFile s p h
  | writeFile p c => exact Inv_writeFile s p c h
  | moveFile p t => exact Inv_moveFile s p t h
  | renameFile p n => exact Inv_renameFile s p n h
  | renameDirectory p n => exact Inv_renameDirectory s p n h
  | moveDirectory p t => exact Inv_moveDirectory cwd s p t h
  | getDirectoryContents p => exact Inv_getDirectoryContents s p h
  | readFile p => exact Inv_readFile s p h
  | find n p => exact Inv_find s n p h

/-- C4: in every state produced from the freshly constructed namespace by
any sequence of public operations (the post-states of throwing operations
included, since `VFS.step` keeps the state an operation leaves behind on
error), every directory in the tree satisfies the uniqueness invariant:
no name is a key of both its child-directory and its child-file
collection. -/
theorem C4_uniqueness_invariant (cwd : String) (ops : List Op) :
    ((VFS.run cwd VFS.init ops).root).Inv := by
  suffices hgen : ∀ (s : VFS), s.root.Inv → (VFS.run cwd s ops).root.Inv from
    hgen VFS.init (Inv_empty ROOT_PATH)
  induction ops with
  | nil => exact fun s hs => hs
  | cons op rest ih => exact fun s hs => ih (VFS.step cwd s op) (Inv_step cwd s op hs)

/-! ## Canonical paths and the round trip

`getPath` composed with the resolver is the identity on nodes whose names
are plain path segments and agree with the keys they are stored under. -/

/-- A name usable as one path segment: nonempty, without `/`, and not one
of the dot segments. -/
def plainSegL (nm : List Char) : Prop :=
  nm ≠ [] ∧ '/' ∉ nm ∧ nm ≠ ['.'] ∧ nm ≠ ['.', '.']

def plainSeg (nm : String) : Prop := plainSegL nm.toList

instance (nm : List Char) : Decidable (plainSegL nm) := by
  unfold plainSegL
  infer_instance

instance (nm : String) : Decidable (plainSeg nm) := by
  unfold plainSeg
  infer_instance

/-- Every node's stored name equals its key in the parent's map and is a
plain segment (root excepted). -/
inductive Dir.GoodNames : Dir → Prop where
  | mk (n : String) (ds : List (String × Dir)) (fs : List (String × FileObj))
      (hdk : ∀ p ∈ ds, p.1 = p.2.name ∧ plainSeg p.2.name)
      (hdr : ∀ p ∈ ds, Dir.GoodNames p.2)
      (hf : ∀ p ∈ fs, p.1 = p.2.name ∧ plainSeg p.2.name) :
      Dir.GoodNames (.mk n ds fs)

theorem Dir.GoodNames.dirKeys {d : Dir} (h : d.GoodNames) (p : String × Dir)
    (hp : p ∈ d.dirs) : p.1 = p.2.name ∧ plainSeg p.2.name := by
  cases h with
  | mk n ds fs hdk hdr hf => exact hdk p hp

theorem Dir.GoodNames.dirRec {d : Dir} (h : d.GoodNames) (p : String × Dir)
    (hp : p ∈ d.dirs) : p.2.GoodNames := by
  cases h with
  | mk n ds fs hdk hdr hf => exact hdr p hp

theorem Dir.GoodNames.fileKeys {d : Dir} (h : d.GoodNames) (p : String × FileObj)
    (hp : p ∈ d.files) : p.1 = p.2.name ∧ plainSeg p.2.name := by
  cases h with
  | mk n ds fs hdk hdr hf => exact hf p hp

/-- The canonical absolute path of a sequence of segments. -/
def canonSegsL : List (List Char) → List Char
  | [] => ['/']
  | segs => '/' :: joinSlashL segs

def canonS (pos : Pos) : String :=
  String.mk (canonSegsL (pos.map String.toList))

@[simp] theorem toList_mk (cs : List Char) : (String.mk cs).toList = cs := rfl

theorem toList_append (a b : String) : (a ++ b).toList = a.toList ++ b.toList := by
  cases a
  cases b
  rfl

theorem mk_toList (s : String) : String.mk s.toList = s := by
  cases s
  rfl

theorem splitSlashL_ne_nil (cs : List Char) : splitSlashL cs ≠ [] := by
  cases cs with
  | nil => simp [splitSlashL]
  | cons c rest =>
    simp only [splitSlashL]
    cases splitSlashL rest with
    | nil => simp
    | cons h t =>
      by_cases hc : c = '/' <;> simp [hc]

theorem splitSlashL_slash_cons (cs : List Char) :
    splitSlashL ('/' :: cs) = [] :: splitSlashL cs := by
  simp only [splitSlashL]
  cases hs : splitSlashL cs with
  | nil => exact absurd hs (splitSlashL_ne_nil cs)
  | cons h t => simp

theorem splitSlashL_noslash_append (s cs : List Char) (h : List Char)
    (tl : List (List Char)) (hs : '/' ∉ s)
    (hcs : splitSlashL cs = h :: tl) :
    splitSlashL (s ++ cs) = (s ++ h) :: tl := by
  induction s with
  | nil => simpa using hcs
  | cons c s' ih =>
    simp only [List.mem_cons, not_or] at hs
    have ih' := ih hs.2
    have hcne : ¬ c = '/' := fun hh => hs.1 hh.symm
    simp only [List.cons_append, splitSlashL, List.append_eq]
    rw [ih']
    show (if c = '/' then [] :: (s' ++ h) :: tl else (c :: (s' ++ h)) :: tl) =
      (c :: (s' ++ h)) :: tl
    rw [if_neg hcne]

theorem splitSlashL_join (segs : List (List Char)) (hne : segs ≠ [])
    (hs : ∀ x ∈ segs, '/' ∉ x) :
    splitSlashL (joinSlashL segs) = segs := by
  induction segs with
  | nil => exact absurd rfl hne
  | cons s rest ih =>
    cases rest with
    | nil =>
      show splitSlashL s = [s]
      have h2 := splitSlashL_noslash_append s [] [] [] (hs s (by simp)) rfl
      simpa using h2
    | cons r rs =>
      have hjoin : joinSlashL (s :: r :: rs) = s ++ '/' :: joinSlashL (r :: rs) := rfl
      rw [hjoin]
      have hrest : splitSlashL (joinSlashL (r :: rs)) = r :: rs :=
        ih (by simp) (fun x hx => hs x (List.mem_cons_of_mem _ hx))
      have hslash : splitSlashL ('/' :: joinSlashL (r :: rs)) = [] :: r :: rs := by
        rw [splitSlashL_slash_cons, hrest]
      rw [splitSlashL_noslash_append s ('/' :: joinSlashL (r :: rs)) [] (r :: rs)
        (hs s (by simp)) hslash]
      simp

theorem foldl_normStep_plain (segs : List (List Char))
    (hp : ∀ x ∈ segs, plainSegL x) (acc : List (List Char)) :
    segs.foldl (normStep false) acc = segs.reverse ++ acc := by
  induction segs generalizing acc with
  | nil => simp
  | cons s rest ih =>
    obtain ⟨h1, h2, h3, h4⟩ := hp s (by simp)
    have hstep : normStep false acc s = s :: acc := by
      unfold normStep
      rw [if_neg (by simp [h1, h3]), if_neg h4]
    simp only [List.foldl_cons, hstep]
    rw [ih (fun x hx => hp x (List.mem_cons_of_mem _ hx)) (s :: acc)]
    simp

theorem joinSlashL_ne_nil (segs : List (List Char)) (hne : segs ≠ [])
    (hs : ∀ x ∈ segs, x ≠ []) : joinSlashL segs ≠ [] := by
  cases segs with
  | nil => exact absurd rfl hne
  | cons s rest =>
    cases rest with
    | nil => simpa [joinSlashL] using hs s (by simp)
    | cons r rs =>
      show s ++ '/' :: joinSlashL (r :: rs) ≠ []
      simp

theorem joinSlashL_append_single (segs : List (List Char)) (k : List Char)
    (hne : segs ≠ []) :
    joinSlashL (segs ++ [k]) = joinSlashL segs ++ '/' :: k := by
  induction segs with
  | nil => exact absurd rfl hne
  | cons s rest ih =>
    cases rest with
    | nil => simp [joinSlashL]
    | cons r rs =>
      show s ++ '/' :: joinSlashL ((r :: rs) ++ [k]) =
        (s ++ '/' :: joinSlashL (r :: rs)) ++ '/' :: k
      rw [ih (by simp)]
      simp

theorem getLast?_slash_join (segs : List (List Char)) (hne : segs ≠ [])
    (hp : ∀ x ∈ segs, plainSegL x) :
    ('/' :: joinSlashL segs).getLast? ≠ some '/' := by
  induction segs with
  | nil => exact absurd rfl hne
  | cons s rest ih =>
    cases rest with
    | nil =>
      obtain ⟨h1, h2, _, _⟩ := hp s (by simp)
      show (('/' :: s : List Char)).getLast? ≠ some '/'
      rw [show ('/' :: s : List Char) = ['/'] ++ s from rfl]
      rw [List.getLast?_append_of_ne_nil _ h1]
      intro hcon
      exact h2 (List.mem_of_getLast?_eq_some hcon)
    | cons r rs =>
      have hj : joinSlashL (s :: r :: rs) = s ++ '/' :: joinSlashL (r :: rs) := rfl
      rw [hj, show ('/' :: (s ++ '/' :: joinSlashL (r :: rs)) : List Char) =
        ('/' :: s) ++ ('/' :: joinSlashL (r :: rs)) by simp]
      rw [List.getLast?_append_of_ne_nil _ (by simp)]
      exact ih (by simp) (fun x hx => hp x (List.mem_cons_of_mem _ hx))

/-- The absolute-path evaluation of `normalizeL`, abstracted over the
split-and-fold computation. -/
theorem normalizeL_abs (cs : List Char) (segs : List (List Char))
    (hhead : cs.head? = some '/')
    (hlast : ¬ cs.getLast? = some '/')
    (hfold : (splitSlashL cs).foldl (normStep false) [] = segs.reverse)
    (hjoin : joinSlashL segs ≠ []) :
    normalizeL cs = '/' :: joinSlashL segs := by
  unfold normalizeL
  rw [if_neg (by
    intro h
    rw [h] at hhead
    simp at hhead)]
  dsimp only
  have hb : (!decide (cs.head? = some '/')) = false := by simp [hhead]
  rw [hb, hfold]
  simp only [List.reverse_reverse]
  rw [if_neg hjoin, if_neg hlast, if_pos hhead]

theorem normalizeL_canon (segs : List (List Char)) (hp : ∀ x ∈ segs, plainSegL x) :
    normalizeL (canonSegsL segs) = canonSegsL segs := by
  cases segs with
  | nil => decide
  | cons s rest =>
    have hne : (s :: rest : List (List Char)) ≠ [] := by simp
    have hcs : canonSegsL (s :: rest) = '/' :: joinSlashL (s :: rest) := rfl
    rw [hcs]
    apply normalizeL_abs
    · rfl
    · exact getLast?_slash_join (s :: rest) hne hp
    · rw [splitSlashL_slash_cons,
        splitSlashL_join (s :: rest) hne (fun x hx => (hp x hx).2.1)]
      rw [List.foldl_cons]
      rw [show normStep false [] [] = [] from rfl]
      rw [foldl_normStep_plain (s :: rest) hp []]
      simp
    · exact joinSlashL_ne_nil _ hne (fun x hx => (hp x hx).1)

theorem normalizeL_canon_append (segs : List (List Char)) (k : List Char)
    (hp : ∀ x ∈ segs, plainSegL x) (hk : plainSegL k) :
    normalizeL (canonSegsL segs ++ '/' :: k) = canonSegsL (segs ++ [k]) := by
  cases segs with
  | nil =>
    show normalizeL ('/' :: '/' :: k) = canonSegsL [k]
    have hsplitk : splitSlashL k = k :: [] := by
      have h2 := splitSlashL_noslash_append k [] [] [] hk.2.1 rfl
      simpa using h2
    apply normalizeL_abs
    · rfl
    · rw [show ('/' :: '/' :: k : List Char) = ['/', '/'] ++ k by simp]
      rw [List.getLast?_append_of_ne_nil _ hk.1]
      intro hcon
      exact hk.2.1 (List.mem_of_getLast?_eq_some hcon)
    · rw [splitSlashL_slash_cons, splitSlashL_slash_cons, hsplitk]
      rw [List.foldl_cons]
      rw [show normStep false [] [] = [] from rfl]
      rw [List.foldl_cons]
      rw [show normStep false [] [] = [] from rfl]
      rw [foldl_normStep_plain [k] (by simpa using hk) []]
      simp
    · simpa [joinSlashL] using hk.1
  | cons s rest =>
    have hne : (s :: rest : List (List Char)) ≠ [] := by simp
    have h1 : canonSegsL (s :: rest) ++ '/' :: k = canonSegsL ((s :: rest) ++ [k]) := by
      show ('/' :: joinSlashL (s :: rest)) ++ '/' :: k =
        '/' :: joinSlashL ((s :: rest) ++ [k])
      rw [joinSlashL_append_single (s :: rest) k hne]
      simp
    rw [h1]
    apply normalizeL_canon
    intro x hx
    rcases List.mem_append.mp hx with hx | hx
    · exact hp x hx
    · simp only [List.mem_singleton] at hx
      rw [hx]
      exact hk

theorem takeWhile_ne_slash_append (m z : List Char) (hm : '/' ∉ m) :
    (m ++ '/' :: z).takeWhile (· ≠ '/') = m := by
  induction m with
  | nil =>
    simp only [List.nil_append, List.takeWhile_cons]
    rw [if_neg (by simp)]
  | cons c m' ih =>
    simp only [List.mem_cons, not_or] at hm
    have hc : ¬ c = '/' := fun hh => hm.1 hh.symm
    simp only [List.cons_append, List.takeWhile_cons]
    rw [if_pos (by simp [hc]), ih hm.2]

theorem dropWhile_ne_slash_append (m z : List Char) (hm : '/' ∉ m) :
    (m ++ '/' :: z).dropWhile (· ≠ '/') = '/' :: z := by
  induction m with
  | nil =>
    simp only [List.nil_append, List.dropWhile_cons]
    rw [if_neg (by simp)]
  | cons c m' ih =>
    simp only [List.mem_cons, not_or] at hm
    have hc : ¬ c = '/' := fun hh => hm.1 hh.symm
    simp only [List.cons_append, List.dropWhile_cons]
    rw [if_pos (by simp [hc])]
    exact ih hm.2

/-- `basename` of any path ending in `/` followed by a plain segment. -/
theorem basenameL_append_seg (u k : List Char) (hk : plainSegL k) :
    basenameL (u ++ '/' :: k) = k := by
  unfold basenameL
  obtain ⟨hk1, hk2, _, _⟩ := hk
  cases hkr : k.reverse with
  | nil => exact absurd (by simpa using hkr) hk1
  | cons c cr =>
    have hcin : c ∈ k := by
      have h0 : c ∈ k.reverse := by rw [hkr]; simp
      simpa using h0
    have hcns : ¬ c = '/' := fun hh => hk2 (hh ▸ hcin)
    have hnos : '/' ∉ (c :: cr : List Char) := by
      intro hmem
      have h0 : '/' ∈ k.reverse := by rw [hkr]; exact hmem
      exact hk2 (by simpa using h0)
    have hrev : (u ++ '/' :: k).reverse = (c :: cr) ++ '/' :: u.reverse := by
      rw [← hkr]
      simp
    rw [hrev]
    rw [show ((c :: cr) ++ '/' :: u.reverse : List Char) =
      c :: (cr ++ '/' :: u.reverse) from rfl]
    rw [List.dropWhile_cons]
    rw [if_neg (by simp [hcns])]
    rw [show (c :: (cr ++ '/' :: u.reverse) : List Char) =
      (c :: cr) ++ '/' :: u.reverse from rfl]
    rw [takeWhile_ne_slash_append (c :: cr) u.reverse hnos, ← hkr]
    simp

theorem dirnameL_canon (segs : List (List Char)) (k : List Char)
    (hp : ∀ x ∈ segs, plainSegL x) (hk : plainSegL k) :
    dirnameL (canonSegsL (segs ++ [k])) = canonSegsL segs := by
  obtain ⟨hk1, hk2, hk3, hk4⟩ := hk
  cases hkr : k.reverse with
  | nil => exact absurd (by simpa using hkr) hk1
  | cons c cr =>
    have hcin : c ∈ k := by
      have h0 : c ∈ k.reverse := by rw [hkr]; simp
      simpa using h0
    have hcns : ¬ c = '/' := fun hh => hk2 (hh ▸ hcin)
    cases segs with
    | nil =>
      show dirnameL ('/' :: k) = ['/']
      unfold dirnameL
      dsimp only
      have hr2 : ((k.reverse.dropWhile (· = '/')).dropWhile (· ≠ '/')) = [] := by
        rw [hkr, List.dropWhile_cons]
        rw [if_neg (by simp [hcns]), ← hkr]
        apply List.dropWhile_eq_nil_iff.mpr
        intro x hx
        simp only [List.mem_reverse] at hx
        simp only [ne_eq, decide_eq_true_eq]
        intro hxs
        exact hk2 (hxs ▸ hx)
      rw [hr2]
      simp
    | cons s rest =>
      have hjoin : joinSlashL ((s :: rest) ++ [k]) = joinSlashL (s :: rest) ++ '/' :: k :=
        joinSlashL_append_single (s :: rest) k (by simp)
      show dirnameL ('/' :: joinSlashL ((s :: rest) ++ [k])) = '/' :: joinSlashL (s :: rest)
      rw [hjoin]
      unfold dirnameL
      dsimp only
      have hr2 : (((joinSlashL (s :: rest) ++ '/' :: k).reverse.dropWhile
          (· = '/')).dropWhile (· ≠ '/')) = '/' :: (joinSlashL (s :: rest)).reverse := by
        have hrev : (joinSlashL (s :: rest) ++ '/' :: k).reverse =
            (c :: cr) ++ '/' :: (joinSlashL (s :: rest)).reverse := by
          rw [← hkr]
          simp
        rw [hrev]
        rw [show ((c :: cr) ++ '/' :: (joinSlashL (s :: rest)).reverse : List Char) =
          c :: (cr ++ '/' :: (joinSlashL (s :: rest)).reverse) from rfl]
        rw [List.dropWhile_cons]
        rw [if_neg (by simp [hcns])]
        rw [show (c :: (cr ++ '/' :: (joinSlashL (s :: rest)).reverse) : List Char) =
          (c :: cr) ++ '/' :: (joinSlashL (s :: rest)).reverse from rfl]
        apply dropWhile_ne_slash_append
        intro hmem
        have h0 : '/' ∈ k.reverse := by rw [hkr]; exact hmem
        exact hk2 (by simpa using h0)
      rw [hr2]
      have hjne : joinSlashL (s :: rest) ≠ [] :=
        joinSlashL_ne_nil _ (by simp) (fun x hx => (hp x hx).1)
      have hlen : ('/' :: (joinSlashL (s :: rest)).reverse : List Char).length =
          (joinSlashL (s :: rest)).length + 1 := by simp
      rw [if_neg (by
        rw [hlen]
        simp)]
      rw [if_neg (by
        rw [hlen]
        rintro ⟨-, hcon⟩
        have h1 : (joinSlashL (s :: rest)).length = 0 := by omega
        exact hjne (List.eq_nil_of_length_eq_zero h1))]
      rw [hlen]
      rw [show ('/' :: (joinSlashL (s :: rest) ++ '/' :: k) : List Char) =
        ('/' :: joinSlashL (s :: rest)) ++ '/' :: k by simp]
      rw [List.take_left' (by simp)]

theorem toList_inj (a b : String) (h : a.toList = b.toList) : a = b := by
  rw [← mk_toList a, ← mk_toList b, h]

theorem mk_inj (a b : List Char) (h : String.mk a = String.mk b) : a = b := by
  have h2 := congrArg String.toList h
  simpa using h2

theorem canonSegsL_cons (a : List Char) (l : List (List Char)) :
    canonSegsL (a :: l) = '/' :: joinSlashL (a :: l) := rfl

theorem canonSegsL_head (l : List (List Char)) :
    (canonSegsL l).head? = some '/' := by
  cases l <;> rfl

theorem canonS_head (pos : Pos) : (canonS pos).toList.head? = some '/' := by
  unfold canonS
  rw [toList_mk]
  exact canonSegsL_head _

theorem isAbsolute_canon (pos : Pos) : isAbsolute (canonS pos) = true := by
  unfold isAbsolute
  rw [canonS_head]
  simp

theorem ne_of_head (s t : String) (h : s.toList.head? = some '/')
    (ht : ¬ t.toList.head? = some '/') : ¬ s = t :=
  fun he => ht (he ▸ h)

theorem isCurrentDir_canon (pos : Pos) : isCurrentDir (canonS pos) = false := by
  simp only [isCurrentDir, decide_eq_false_iff_not, not_or]
  exact ⟨ne_of_head _ _ (canonS_head pos) (by decide),
    ne_of_head _ _ (canonS_head pos) (by decide)⟩

theorem isMoveUp_canon (pos : Pos) : isMoveUp (canonS pos) = false := by
  simp only [isMoveUp, decide_eq_false_iff_not, not_or]
  exact ⟨ne_of_head _ _ (canonS_head pos) (by decide),
    ne_of_head _ _ (canonS_head pos) (by decide)⟩

theorem canonS_ne_root (pos : Pos) (hne : pos ≠ [])
    (hp : ∀ x ∈ pos, plainSeg x) : ¬ canonS pos = ROOT_PATH := by
  cases pos with
  | nil => exact absurd rfl hne
  | cons a l =>
    intro he
    have h2 : canonSegsL ((a :: l).map String.toList) = ['/'] := by
      have h3 := congrArg String.toList he
      simpa [canonS, ROOT_PATH] using h3
    rw [show ((a :: l).map String.toList) = a.toList :: l.map String.toList from rfl,
      canonSegsL_cons] at h2
    have h4 : joinSlashL (a.toList :: l.map String.toList) = [] := by
      simpa using h2
    refine joinSlashL_ne_nil _ (by simp) ?_ h4
    intro x hx
    rcases List.mem_cons.mp hx with hx | hx
    · subst hx
      exact (hp a (by simp)).1
    · obtain ⟨y, hy, rfl⟩ := List.mem_map.mp hx
      exact (hp y (List.mem_cons_of_mem _ hy)).1

theorem map_toList_plain (pos : Pos) (hp : ∀ x ∈ pos, plainSeg x) :
    ∀ x ∈ pos.map String.toList, plainSegL x := by
  intro x hx
  obtain ⟨y, hy, rfl⟩ := List.mem_map.mp hx
  exact hp y hy

theorem normalize_canonS (pos : Pos) (hp : ∀ x ∈ pos, plainSeg x) :
    normalize (canonS pos) = canonS pos := by
  unfold normalize canonS
  rw [toList_mk, normalizeL_canon _ (map_toList_plain pos hp)]

theorem canon_append_name (pos : Pos) (k : String) (hp : ∀ x ∈ pos, plainSeg x)
    (hk : plainSeg k) : normalize (canonS pos ++ "/" ++ k) = canonS (pos ++ [k]) := by
  unfold normalize canonS
  rw [toList_append, toList_append, toList_mk]
  rw [show ("/" : String).toList = ['/'] from rfl, List.append_assoc]
  rw [show (['/'] ++ k.toList : List Char) = '/' :: k.toList from rfl]
  rw [normalizeL_canon_append _ _ (map_toList_plain pos hp) hk]
  rw [show ((pos ++ [k]).map String.toList) = pos.map String.toList ++ [k.toList] by
    simp]

theorem map_mk_map_toList (l : List String) :
    (l.map String.toList).map String.mk = l := by
  induction l with
  | nil => rfl
  | cons a t ih => simp [ih, mk_toList]

theorem pathSegs_canon (pre : Pos) (k : String) (hp : ∀ x ∈ pre, plainSeg x)
    (hk : plainSeg k) : pathSegsOfDirname (canonS (pre ++ [k])) = pre := by
  have hdl : (dirname (canonS (pre ++ [k]))).toList =
      canonSegsL (pre.map String.toList) := by
    unfold dirname canonS
    rw [toList_mk, toList_mk]
    rw [show ((pre ++ [k]).map String.toList) =
      pre.map String.toList ++ [k.toList] by simp]
    exact dirnameL_canon _ _ (map_toList_plain pre hp) hk
  unfold pathSegsOfDirname
  rw [hdl]
  cases pre with
  | nil => decide
  | cons a l =>
    rw [show ((a :: l).map String.toList) = a.toList :: l.map String.toList from rfl,
      canonSegsL_cons]
    rw [splitSlashL_slash_cons, splitSlashL_join _ (by simp) (by
      intro x hx
      have h2 := map_toList_plain (a :: l) hp x (by simpa using hx)
      exact h2.2.1)]
    rw [show ((([] :: a.toList :: l.map String.toList).map String.mk)) =
      "" :: (a.toList :: l.map String.toList).map String.mk from rfl]
    rw [List.filter_cons_of_neg (by decide)]
    rw [List.filter_eq_self.mpr (by
      intro x hx
      obtain ⟨y, hy, rfl⟩ := List.mem_map.mp hx
      have h2 := map_toList_plain (a :: l) hp y (by simpa using hy)
      simp only [ne_eq, decide_eq_true_eq]
      intro hcon
      exact h2.1 (mk_inj _ _ hcon))]
    rw [show (a.toList :: l.map String.toList : List (List Char)) =
      (a :: l).map String.toList from rfl]
    exact map_mk_map_toList (a :: l)

theorem basename_canon (pre : Pos) (k : String) (hk : plainSeg k) :
    basename (canonS (pre ++ [k])) = k := by
  unfold basename canonS
  rw [toList_mk]
  cases pre with
  | nil =>
    rw [show (([] ++ [k] : Pos).map String.toList) = [k.toList] from rfl]
    rw [show canonSegsL [k.toList] = [] ++ '/' :: k.toList from rfl]
    rw [basenameL_append_seg [] k.toList hk, mk_toList]
  | cons a l =>
    rw [show (((a :: l) ++ [k]).map String.toList) =
      a.toList :: (l.map String.toList ++ [k.toList]) by simp]
    rw [canonSegsL_cons]
    rw [show (a.toList :: (l.map String.toList ++ [k.toList])) =
      (a.toList :: l.map String.toList) ++ [k.toList] from rfl]
    rw [joinSlashL_append_single _ _ (by simp)]
    rw [show ('/' :: (joinSlashL (a.toList :: l.map String.toList) ++ '/' :: k.toList)
        : List Char) =
      ('/' :: joinSlashL (a.toList :: l.map String.toList)) ++ '/' :: k.toList
      from rfl]
    rw [basenameL_append_seg _ k.toList hk, mk_toList]

theorem dirAtPos_append (root : Dir) (a b : Pos) :
    dirAtPos root (a ++ b) = (dirAtPos root a).bind (fun d => dirAtPos d b) := by
  induction a generalizing root with
  | nil => simp [dirAtPos]
  | cons k rest ih =>
    cases hk : getEntry k root.dirs with
    | none => simp [dirAtPos, hk]
    | some c => simp [dirAtPos, hk, ih c]

theorem dirAtPos_single (d : Dir) (k : String) :
    dirAtPos d [k] = getEntry k d.dirs := by
  unfold dirAtPos
  cases hk : getEntry k d.dirs with
  | none => simp
  | some c => simp [dirAtPos]

theorem walkSegs_plain (root : Dir) (acc rest : Pos)
    (h : (dirAtPos root (acc ++ rest)).isSome)
    (hp : ∀ x ∈ rest, plainSeg x) : walkSegs root acc rest = some (acc ++ rest) := by
  induction rest generalizing acc with
  | nil => simp [walkSegs]
  | cons seg rest' ih =>
    obtain ⟨h1, h2, h3, h4⟩ := hp seg (by simp)
    have hmu : isMoveUp seg = false := by
      simp only [isMoveUp, decide_eq_false_iff_not, not_or]
      constructor
      · intro hcon
        exact h4 (by rw [hcon]; rfl)
      · intro hcon
        exact h2 (by rw [hcon]; decide)
    have hcd : isCurrentDir seg = false := by
      simp only [isCurrentDir, decide_eq_false_iff_not, not_or]
      constructor
      · intro hcon
        exact h3 (by rw [hcon]; rfl)
      · intro hcon
        exact h2 (by rw [hcon]; decide)
    have hpre : (dirAtPos root (acc ++ [seg])).isSome := by
      have hsplit : acc ++ seg :: rest' = (acc ++ [seg]) ++ rest' := by simp
      rw [hsplit, dirAtPos_append] at h
      cases hq : dirAtPos root (acc ++ [seg]) with
      | none => rw [hq] at h; simp at h
      | some q => simp
    unfold walkSegs
    rw [hmu]
    simp only [Bool.false_eq_true, if_false]
    rw [hcd]
    simp only [Bool.false_eq_true, if_false]
    obtain ⟨q, hq⟩ := Option.isSome_iff_exists.mp hpre
    rw [hq]
    have hrest : (dirAtPos root ((acc ++ [seg]) ++ rest')).isSome := by
      have hsplit : acc ++ seg :: rest' = (acc ++ [seg]) ++ rest' := by simp
      rw [hsplit] at h
      exact h
    have ih2 := ih (acc ++ [seg]) hrest (fun x hx => hp x (List.mem_cons_of_mem _ hx))
    rw [ih2]
    simp

theorem goodNames_along (pos : Pos) (d c : Dir) (hg : d.GoodNames)
    (h : dirAtPos d pos = some c) : c.GoodNames := by
  induction pos generalizing d with
  | nil =>
    obtain rfl : d = c := Option.some.inj h
    exact hg
  | cons k rest ih =>
    unfold dirAtPos at h
    cases hk : getEntry k d.dirs with
    | none => rw [hk] at h; simp at h
    | some c0 =>
      rw [hk] at h
      exact ih c0 (hg.dirRec (k, c0) (mem_of_getEntry k c0 d.dirs hk)) h

theorem plain_along (pos : Pos) (d c : Dir) (hg : d.GoodNames)
    (h : dirAtPos d pos = some c) : ∀ x ∈ pos, plainSeg x := by
  induction pos generalizing d with
  | nil => simp
  | cons k rest ih =>
    unfold dirAtPos at h
    cases hk : getEntry k d.dirs with
    | none => rw [hk] at h; simp at h
    | some c0 =>
      rw [hk] at h
      have hmem := mem_of_getEntry k c0 d.dirs hk
      have hkey := hg.dirKeys (k, c0) hmem
      intro x hx
      rcases List.mem_cons.mp hx with hx | hx
      · rw [hx]
        have h5 : k = c0.name := hkey.1
        rw [h5]
        exact hkey.2
      · exact ih c0 (hg.dirRec (k, c0) hmem) h x hx

theorem dirPathStringAux_canon (pos : Pos) (d : Dir) (pre : Pos)
    (hg : d.GoodNames) (hpre : ∀ x ∈ pre, plainSeg x)
    (hvalid : (dirAtPos d pos).isSome) :
    dirPathStringAux d (canonS pre) pos = some (canonS (pre ++ pos)) := by
  induction pos generalizing d pre with
  | nil => simp [dirPathStringAux]
  | cons k rest ih =>
    have hv := hvalid
    unfold dirAtPos at hv
    cases hk : getEntry k d.dirs with
    | none => rw [hk] at hv; simp at hv
    | some c =>
      rw [hk] at hv
      have hmem := mem_of_getEntry k c d.dirs hk
      have hkc : k = c.name := (hg.dirKeys (k, c) hmem).1
      have hplc : plainSeg c.name := (hg.dirKeys (k, c) hmem).2
      unfold dirPathStringAux
      rw [hk]
      dsimp only
      rw [canon_append_name pre c.name hpre hplc, ← hkc]
      have hpre2 : ∀ x ∈ pre ++ [k], plainSeg x := by
        intro x hx
        rcases List.mem_append.mp hx with hx | hx
        · exact hpre x hx
        · simp only [List.mem_singleton] at hx
          rw [hx, hkc]
          exact hplc
      rw [ih c (pre ++ [k]) (hg.dirRec (k, c) hmem) hpre2 hv]
      rw [List.append_assoc]
      rfl

theorem dirPathString_canon (root : Dir) (pos : Pos)
    (hroot : root.name = ROOT_PATH) (hg : root.GoodNames)
    (hvalid : (dirAtPos root pos).isSome) :
    dirPathString root pos = some (canonS pos) := by
  unfold dirPathString
  rw [hroot, show (ROOT_PATH : String) = canonS [] from by decide]
  have h2 := dirPathStringAux_canon pos root [] hg (by simp) hvalid
  simpa using h2

theorem resolveDirPos_canon (s : VFS) (pre : Pos) (k : String) (d : Dir)
    (hg : s.root.GoodNames)
    (h : dirAtPos s.root (pre ++ [k]) = some d) :
    s.resolveDirPos (canonS (pre ++ [k])) = some (pre ++ [k]) := by
  have hplain : ∀ x ∈ pre ++ [k], plainSeg x := plain_along _ _ _ hg h
  have hppre : ∀ x ∈ pre, plainSeg x := fun x hx => hplain x (by simp [hx])
  have hpk : plainSeg k := hplain k (by simp)
  unfold VFS.resolveDirPos
  dsimp only
  rw [normalize_canonS _ hplain]
  rw [isCurrentDir_canon]
  simp only [Bool.false_eq_true, if_false]
  rw [if_neg (canonS_ne_root _ (by simp) hplain)]
  rw [isMoveUp_canon]
  simp only [Bool.false_eq_true, if_false]
  rw [pathSegs_canon pre k hppre hpk]
  rw [isAbsolute_canon]
  rw [if_pos rfl]
  have hpreSome : (dirAtPos s.root pre).isSome := by
    rw [dirAtPos_append] at h
    cases hq : dirAtPos s.root pre with
    | none => rw [hq] at h; simp at h
    | some q => simp
  obtain ⟨dpre, hdpre⟩ := Option.isSome_iff_exists.mp hpreSome
  have hwalk : walkSegs s.root [] pre = some pre := by
    have h3 := walkSegs_plain s.root [] pre (by simpa using hpreSome) hppre
    simpa using h3
  simp only [hwalk]
  simp only [hdpre]
  rw [basename_canon pre k hpk]
  have hentry : getEntry k dpre.dirs = some d := by
    rw [dirAtPos_append, hdpre] at h
    simpa [dirAtPos_single] using h
  rw [hentry]
  simp

theorem getTargetFile_canon (s : VFS) (pos : Pos) (d : Dir) (k : String) (f : FileObj)
    (hg : s.root.GoodNames) (h : dirAtPos s.root pos = some d)
    (hf : getEntry k d.files = some f) (hpk : plainSeg k) :
    s.getTargetFile (canonS (pos ++ [k])) = some (pos, k, f) := by
  have hppos : ∀ x ∈ pos, plainSeg x := plain_along _ _ _ hg h
  have hplain : ∀ x ∈ pos ++ [k], plainSeg x := by
    intro x hx
    rcases List.mem_append.mp hx with hx | hx
    · exact hppos x hx
    · simp only [List.mem_singleton] at hx
      rw [hx]
      exact hpk
  unfold VFS.getTargetFile
  dsimp only
  rw [normalize_canonS _ hplain]
  rw [pathSegs_canon pos k hppos hpk]
  rw [isAbsolute_canon]
  rw [if_pos rfl]
  have hwalk : walkSegs s.root [] pos = some pos := by
    have h3 := walkSegs_plain s.root [] pos (by simp [h]) hppos
    simpa using h3
  simp only [hwalk]
  simp only [h]
  rw [basename_canon pos k hpk]
  simp only [hf]

/-- Directory `d` and file `f` in the root, then the failing
`renameFile('f', 'd')` (AmbiguousPath) whose partial mutation leaves the
file keyed `f` but named `d`. -/
def c5Broken : VFS := VFS.run demoCwd VFS.init
  [.makeDirectory "d", .makeFile "f", .renameFile "f" "d"]

/-- Directory `a` containing the file `a/b`. -/
def c5Good : VFS := VFS.run demoCwd VFS.init [.makeDirectory "a", .makeFile "a/b"]

/-- C5 counterexample: in the reachable state left by the failing
`renameFile('f', 'd')`, the file stored under key `f` reports
`getPath() = '/d'`, but resolving `/d` as a file finds nothing: the
round trip `resolve(N.getPath())` does not return `N` for every
reachable node. -/
theorem C5_counterexample :
    getEntry "f" c5Broken.root.files = some (FileObj.mk "d" none none) ∧
    filePathString c5Broken.root [] (FileObj.mk "d" none none) = some "/d" ∧
    c5Broken.getTargetFile "/d" = none :=
  ⟨by decide, by decide, by decide⟩

/-- C5 (amended): on any state whose attached nodes all carry names that
equal the key they are stored under and that are plain path segments
(no `/`, not empty, not `.` or `..`) — an invariant every freshly built
tree satisfies but the rename-collision partial mutation breaks — the
round trip holds: for every directory position and every file entry,
`getPath()` resolves back, with the matching kind, to exactly that node. -/
theorem C5_roundtrip (s : VFS) (hroot : s.root.name = ROOT_PATH)
    (hg : s.root.GoodNames) :
    (∀ pos d, dirAtPos s.root pos = some d →
      ∃ p, dirPathString s.root pos = some p ∧
        s.getTargetDirectory p = some (pos, d)) ∧
    (∀ pos d k f, dirAtPos s.root pos = some d → getEntry k d.files = some f →
      ∃ p, filePathString s.root pos f = some p ∧
        s.getTargetFile p = some (pos, k, f)) := by
  constructor
  · intro pos d h
    refine ⟨canonS pos, dirPathString_canon s.root pos hroot hg (by simp [h]), ?_⟩
    rcases List.eq_nil_or_concat pos with rfl | ⟨pre, k, hcat⟩
    · obtain rfl : s.root = d := Option.some.inj h
      unfold VFS.getTargetDirectory VFS.resolveDirPos
      dsimp only
      rw [show canonS [] = ROOT_PATH from by decide]
      rw [show normalize ROOT_PATH = ROOT_PATH from by decide]
      rw [show isCurrentDir ROOT_PATH = false from by decide]
      simp only [Bool.false_eq_true, if_false, if_true]
      rfl
    · rw [List.concat_eq_append] at hcat
      subst hcat
      unfold VFS.getTargetDirectory
      rw [resolveDirPos_canon s pre k d hg h]
      dsimp only
      simp only [h]
      rfl
  · intro pos d k f h hf
    have hkey := (goodNames_along pos s.root d hg h).fileKeys (k, f)
      (mem_of_getEntry k f d.files hf)
    have hkf : k = f.name := hkey.1
    have hpk : plainSeg k := by
      rw [hkf]
      exact hkey.2
    refine ⟨canonS (pos ++ [k]), ?_, getTargetFile_canon s pos d k f hg h hf hpk⟩
    unfold filePathString
    rw [dirPathString_canon s.root pos hroot hg (by simp [h])]
    dsimp only [Option.map]
    rw [← hkf]
    rw [canon_append_name pos k (plain_along pos s.root d hg h) hpk]

/-- C5 witness: the round trip evaluated on the tree holding directory
`/a` and file `/a/b`, for the directory at `['a']` and the file `b`
inside it. -/
theorem C5_roundtrip_witness :
    (∃ p, dirPathString c5Good.root ["a"] = some p ∧
      c5Good.getTargetDirectory p =
        some (["a"], Dir.mk "a" [] [("b", FileObj.mk "b" none none)])) ∧
    (∃ p, filePathString c5Good.root ["a"] (FileObj.mk "b" none none) = some p ∧
      c5Good.getTargetFile p = some (["a"], "b", FileObj.mk "b" none none)) := by
  have hg : c5Good.root.GoodNames := by
    rw [show c5Good.root =
      Dir.mk "/" [("a", Dir.mk "a" [] [("b", FileObj.mk "b" none none)])] []
      from rfl]
    refine .mk _ _ _ (by decide) ?_ (by decide)
    intro p hp
    rcases List.mem_singleton.mp hp with rfl
    exact .mk _ _ _ (by decide) (by intro q hq; simp at hq) (by decide)
  exact ⟨(C5_roundtrip c5Good rfl hg).1 ["a"]
      (Dir.mk "a" [] [("b", FileObj.mk "b" none none)]) rfl,
    (C5_roundtrip c5Good rfl hg).2 ["a"]
      (Dir.mk "a" [] [("b", FileObj.mk "b" none none)]) "b"
      (FileObj.mk "b" none none) rfl rfl⟩

/-- `pathUtils.basename` never returns the root sentinel `/` (its result
is a run of non-slash characters). -/
theorem basename_ne_root (p : String) : ¬ basename p = ROOT_PATH := by
  intro he
  unfold basename at he
  have h2 : basenameL p.toList = ['/'] := by
    have h3 := congrArg String.toList he
    simpa [ROOT_PATH] using h3
  unfold basenameL at h2
  have h4 : '/' ∈ (p.toList.reverse.dropWhile (· = '/')).takeWhile (· ≠ '/') := by
    have h5 : '/' ∈
        ((p.toList.reverse.dropWhile (· = '/')).takeWhile (· ≠ '/')).reverse := by
      rw [h2]
      simp
    simpa using h5
  have h6 := List.mem_takeWhile_imp h4
  simp at h6

/-- The reachable state left by a failed rename (file keyed `f`, named
`g`) with the blocking directory `g` then removed. -/
def c9Broken : VFS := VFS.run demoCwd VFS.init
  [.makeDirectory "g", .makeFile "f", .renameFile "f" "g", .removeDirectory "g"]

/-- C9 counterexample: for the reachable file whose stored name `g`
diverges from its key `f`, `moveFile` into the file's own parent
succeeds but does NOT remove the file: `addFile` inserts a new entry
under the stale field name `g` and `removeFile(file.name)` removes that
very entry again, so the state after the call is identical to the state
before and the file is still in the tree, refuting the universal
claim. -/
theorem C9_counterexample :
    getEntry "f" c9Broken.root.files = some (FileObj.mk "g" none none) ∧
    c9Broken.moveFile "f" "/" = (Except.ok (), c9Broken) ∧
    getEntry "f" (c9Broken.moveFile "f" "/").2.root.files =
      some (FileObj.mk "g" none none) :=
  ⟨by decide, rfl, by decide⟩

/-- C1 (amended): every public operation that throws an error leaves the
state exactly as before the call, with these precisely delimited
exceptions: `renameFile` failing `AmbiguousPath` leaves the file's
`name` field set to the requested new name (sole reachable exception,
see the counterexample); and when the directory resolved by
`removeDirectory` / `renameDirectory` / `moveDirectory` is a non-root
directory whose stored `name` field is the root sentinel `/`, the
`CannotUpdateRoot` failure raised by the `removeDirectory` primitive
occurs after the byte-counter subtraction (`removeDirectory`)
respectively after the re-keyed insertion (`renameDirectory`,
`moveDirectory`). Every other error of every public operation performs
a full rollback. -/
theorem C1_error_rollback (s : VFS) (cwd : String) :
    (∀ p e, (s.getDirectoryContents p).1 = .error e →
      (s.getDirectoryContents p).2 = s) ∧
    (∀ p e, (s.changeDirectory p).1 = .error e → (s.changeDirectory p).2 = s) ∧
    (∀ p e, (s.makeDirectory p).1 = .error e → (s.makeDirectory p).2 = s) ∧
    (∀ p e, (s.makeFile p).1 = .error e → (s.makeFile p).2 = s) ∧
    (∀ p e, (s.removeFile p).1 = .error e → (s.removeFile p).2 = s) ∧
    (∀ p e, (s.readFile p).1 = .error e → (s.readFile p).2 = s) ∧
    (∀ p c e, (s.writeFile p c).1 = .error e → (s.writeFile p c).2 = s) ∧
    (∀ p t e, (s.moveFile p t).1 = .error e → (s.moveFile p t).2 = s) ∧
    (∀ n p e, (s.find n p).1 = .error e → (s.find n p).2 = s) ∧
    (∀ p e, (s.removeDirectory p).1 = .error e →
      (s.removeDirectory p).2 = s ∨
      (e = .CannotUpdateRoot ∧ ∃ pos d,
        s.getTargetDirectory p = some (pos, d) ∧ ¬ pos = [] ∧
        d.name = ROOT_PATH ∧
        (s.removeDirectory p).2 = { s with totalFileContentBytes :=
          (s.totalFileContentBytes - (d.getTotalByteCount : Int)) })) ∧
    (∀ p n e, (s.renameDirectory p n).1 = .error e →
      (s.renameDirectory p n).2 = s ∨
      (e = .CannotUpdateRoot ∧ ∃ dPos dir,
        s.getTargetDirectory p = some (dPos, dir) ∧ ¬ dPos = [] ∧
        dir.name = ROOT_PATH ∧
        (s.renameDirectory p n).2 = { s with root :=
          (updateAt (updateAt s.root dPos.dropLast (fun q => q.withDirs
              (setEntry (dPos.getLast?.getD "") (Dir.mk n dir.dirs dir.files)
                q.dirs)))
            dPos.dropLast (fun q => q.withDirs
              (setEntry n (Dir.mk n dir.dirs dir.files) q.dirs))) })) ∧
    (∀ p t e, (s.moveDirectory cwd p t).1 = .error e →
      (s.moveDirectory cwd p t).2 = s ∨
      (e = .CannotUpdateRoot ∧ ∃ dPos dir tPos tDir tDir2,
        s.getTargetDirectory p = some (dPos, dir) ∧
        s.getTargetDirectory t = some (tPos, tDir) ∧
        tDir.addDirectory dir = .ok tDir2 ∧ ¬ dPos = [] ∧
        dir.name = ROOT_PATH ∧
        (s.moveDirectory cwd p t).2 =
          { s with root := updateAt s.root tPos (fun _ => tDir2) })) ∧
    (∀ p n e, (s.renameFile p n).1 = .error e →
      (s.renameFile p n).2 = s ∨
      (e = .AmbiguousPath ∧ ∃ pPos key f,
        s.getTargetFile p = some (pPos, key, f) ∧
        (s.renameFile p n).2 = { s with root := (updateAt s.root pPos
          (fun d => d.withFiles (setEntry key { f with name := n } d.files))) })) := by
  refine ⟨?_, ?_, ?_, ?_, ?_, ?_, ?_, ?_, ?_, ?_, ?_, ?_, ?_⟩
  · intro p e
    unfold VFS.getDirectoryContents VFS.getDirectoryContentsOfCurrent
    try dsimp only
    repeat' split
    all_goals intro he
    all_goals rfl
  · intro p e
    unfold VFS.changeDirectory
    try dsimp only
    repeat' split
    all_goals intro he
    all_goals first | rfl | simp at he
  · intro p e
    unfold VFS.makeDirectory
    try dsimp only
    repeat' split
    all_goals intro he
    all_goals first | rfl | simp at he
  · intro p e
    unfold VFS.makeFile
    try dsimp only
    repeat' split
    all_goals intro he
    all_goals first | rfl | simp at he
  · intro p e
    unfold VFS.removeFile
    try dsimp only
    repeat' split
    all_goals intro he
    all_goals first | rfl | simp at he
  · intro p e
    unfold VFS.readFile
    try dsimp only
    repeat' split
    all_goals intro he
    all_goals rfl
  · intro p c e
    unfold VFS.writeFile
    try dsimp only
    repeat' split
    all_goals intro he
    all_goals first | rfl | simp at he
  · intro p t e
    unfold VFS.moveFile
    try dsimp only
    repeat' split
    all_goals intro he
    all_goals first | rfl | simp at he
  · intro n p e he
    rfl
  · intro p e
    unfold VFS.removeDirectory
    try dsimp only
    split
    · intro _
      left
      rfl
    · next pos d heq =>
      split
      · intro _
        left
        rfl
      · next hpos =>
        split
        · next hname =>
          intro he
          right
          exact ⟨by simpa using he.symm, pos, d, heq, hpos, hname, rfl⟩
        · intro he
          simp at he
  · intro p n e
    unfold VFS.renameDirectory
    try dsimp only
    split
    · intro _
      left
      rfl
    · split
      · intro _
        left
        rfl
      · next dPos dir heq =>
        split
        · intro _
          left
          rfl
        · next hdp =>
          split
          · intro _
            left
            rfl
          · split
            · next hfn =>
              intro he
              right
              exact ⟨by simpa using he.symm, dPos, dir, heq, hdp, hfn, rfl⟩
            · split
              · next hbn =>
                exact absurd hbn (basename_ne_root p)
              · intro he
                simp at he
  · intro p t e
    unfold VFS.moveDirectory
    try dsimp only
    split
    · intro _
      left
      rfl
    · split
      · intro _
        left
        rfl
      · intro _
        left
        rfl
      · next dPos dir tPos tDir heq1 heq2 =>
        split
        · intro _
          left
          rfl
        · next tDir2 heq3 =>
          split
          · next hcond =>
            intro he
            right
            exact ⟨by simpa using he.symm, dPos, dir, tPos, tDir, tDir2,
              heq1, heq2, heq3, hcond.1, hcond.2, rfl⟩
          · intro he
            simp at he
  · intro p n e
    unfold VFS.renameFile
    try dsimp only
    split
    · intro _
      left
      rfl
    · next pPos key f heq =>
      split
      · next hdir =>
        intro he
        right
        exact ⟨by simpa using he.symm, pPos, key, f, heq, rfl⟩
      · intro he
        simp at he

/-- C1 witness: the rollback theorem applied to the failing
`makeDirectory('')` on the fresh state. -/
theorem C1_error_rollback_witness :
    (VFS.init.makeDirectory "").1 = Except.error Err.MissingPath ∧
    (VFS.init.makeDirectory "").2 = VFS.init :=
  ⟨by decide,
    (C1_error_rollback VFS.init demoCwd).2.2.1 "" Err.MissingPath (by decide)⟩

end VFSModel
